import Mathlib

/-!
Verification of the Huffman-table transcoder of the puffin repository
(`src/huffman_table.cc`).  The definitions below are a shallow embedding of
that file: machine integers become `Nat`, the `Buffer` byte vectors become
`List Nat`, the bit streams of the `BitReader`/`BitWriter` interfaces become
`List Bool` (LSB-first), and fallible functions return `Option`/`Except`.
Loops that advance a strictly increasing index run on an explicit fuel
argument; every call site passes fuel dominating the iteration count, so the
fuel-exhaustion branch is unreachable there.
-/

namespace Puffin

/-- Error kind of the puffin `Error` enum (the three values used by
`huffman_table.cc`). -/
inductive PErr where
  | insufficientInput
  | insufficientOutput
  | invalidInput
  deriving DecidableEq, Repr

/-! ## Bit streams

The DEFLATE bit stream is a sequence of bits packed LSB-first.  We model the
reader state as the list of not-yet-consumed bits and the writer state as the
list of bits already emitted. -/

/-- A bit stream, first element = next bit to read (LSB-first order). -/
abbrev Bits := List Bool

/-- Value of a bit list read LSB-first (the head is the least significant
bit), as returned by `BitReader::ReadBits` over a cached window. -/
def bitsVal : Bits → Nat
  | [] => 0
  | b :: rest => (if b then 1 else 0) + 2 * bitsVal rest

/-- The low `n` bits of `v`, LSB-first, as emitted by
`BitWriter::WriteBits(n, v)`. -/
def natBits : Nat → Nat → Bits
  | 0, _ => []
  | n + 1, v => decide (v % 2 = 1) :: natBits n (v / 2)

/-- `BitReader::ReadBits(n)`: peek the next `n` bits as an unsigned value. -/
def readBits (n : Nat) (s : Bits) : Nat := bitsVal (s.take n)

/-- `BitReader::DropBits(n)`: advance past `n` bits. -/
def dropBits (n : Nat) (s : Bits) : Bits := s.drop n

/-! ## Canonical Huffman code construction (`InitHuffmanCodes`) -/

/-- `kMaxHuffmanBits` from `huffman_table.h` (the `len_count_`/`next_code_`
temporaries have `kMaxHuffmanBits + 1 = 16` slots).
Modelled from the spec: `huffman_table.h` is not in `src/`; §4.3 of the spec
counts symbols per length `1..15`. -/
def kMaxHuffmanBits : Nat := 15

/-- `len_count_[l]`: number of symbols whose code length is `l`
(step 1 of `InitHuffmanCodes`). -/
def lenCount (lens : List Nat) (l : Nat) : Nat := lens.count l

/-- The downward scan `for (*max_bits = kMaxHuffmanBits; *max_bits >= 1; ...)`
that stops at the largest length with a nonzero count (0 if none). -/
def maxBitsAux (lens : List Nat) : Nat → Nat
  | 0 => 0
  | n + 1 => if lenCount lens (n + 1) ≠ 0 then n + 1 else maxBitsAux lens n

/-- `*max_bits` as computed by `InitHuffmanCodes`. -/
def maxBitsOf (lens : List Nat) : Nat := maxBitsAux lens kMaxHuffmanBits

/-- The oversubscription scan of `InitHuffmanCodes`
(`len_count_[idx] > (1 << idx)` for some `idx` in `1..max_bits`). -/
def oversubscribed (lens : List Nat) : Bool :=
  (List.range' 1 (maxBitsOf lens)).any fun l => decide (2 ^ l < lenCount lens l)

/-- `next_code_[l]` before any symbol of length `l` is assigned: the loop
`code = (code + len_count_[bits - 1]) << 1` of step 2, with `len_count_[0]`
zeroed first. -/
def firstCode (lens : List Nat) : Nat → Nat
  | 0 => 0
  | l + 1 => (firstCode lens l + if l = 0 then 0 else lenCount lens l) * 2

/-- The per-symbol code reversal loop of step 3: reverse the low `l` bits. -/
def bitRev : Nat → Nat → Nat
  | 0, _ => 0
  | l + 1, c => bitRev l (c / 2) + c % 2 * 2 ^ l

/-- `CodeIndexPair` from `huffman_table.h`: a bit-reversed code and the symbol
index it belongs to. -/
structure CodeIndexPair where
  code : Nat
  index : Nat
  deriving DecidableEq, Repr

/-- Step 3 of `InitHuffmanCodes`: walk the (index, length) pairs in symbol
order, skip zero lengths, assign `next_code_[len]` (bit-reversed) and
post-increment `next_code_[len]`.  The mutable `next_code_` array is the
function argument `nc`. -/
def buildPairs : (Nat → Nat) → List (Nat × Nat) → List CodeIndexPair
  | _, [] => []
  | nc, (i, l) :: rest =>
    if l = 0 then buildPairs nc rest
    else ⟨bitRev l (nc l), i⟩ ::
      buildPairs (fun m => if m = l then nc l + 1 else nc m) rest

/-- `HuffmanTable::InitHuffmanCodes`: `none` models `return false` (the
oversubscription error); otherwise the resulting `codeindexpairs_` and
`*max_bits`. -/
def initHuffmanCodes (lens : List Nat) : Option (List CodeIndexPair × Nat) :=
  if oversubscribed lens then none
  else some (buildPairs (firstCode lens) lens.enum, maxBitsOf lens)

/-- Kraft sum of a code-length array, following the words of the spec:
`sum(2^-lens[i] for lens[i] > 0)`. -/
def kraft (lens : List Nat) : ℚ :=
  ((lens.filter fun l => decide (l ≠ 0)).map fun l => (1 : ℚ) / 2 ^ l).sum

/-- Integer-scaled Kraft sum: `kraft * 2 ^ 15` when all entries are `≤ 15`. -/
def kraftScaled (lens : List Nat) : Nat :=
  ((lens.filter fun l => decide (l ≠ 0)).map fun l =>
    2 ^ (kMaxHuffmanBits - l)).sum

/-- Closed form of the canonical code assigned to symbol `i` when its length
is `l`: the first code of length `l` plus the number of earlier symbols of the
same length. -/
def canonCode (lens : List Nat) (i l : Nat) : Nat :=
  firstCode lens l + (lens.take i).count l

/-- Closed form of the whole `codeindexpairs_` list produced by
`InitHuffmanCodes`. -/
def codesSpec (lens : List Nat) : List CodeIndexPair :=
  (lens.enum.filter fun p => decide (p.2 ≠ 0)).map fun p =>
    ⟨bitRev p.2 (canonCode lens p.1 p.2), p.1⟩

/-! ## Canonical codes fit their lengths under the Kraft inequality -/

/-- Partial scaled Kraft sum over lengths `a..15`. -/
def tailSumAux (lens : List Nat) : Nat → Nat → Nat
  | _, 0 => 0
  | a, d + 1 => lenCount lens a * 2 ^ (15 - a) + tailSumAux lens (a + 1) d

/-- Scaled Kraft mass contributed by lengths `a..15`. -/
def tailSum (lens : List Nat) (a : Nat) : Nat := tailSumAux lens a (16 - a)

/-! ## The forward table (`BuildHuffmanCodes`) -/

/-- The inner fill loop of `BuildHuffmanCodes`
(`for (idx = 1; idx < (1 << fill_bits); idx++)`): `n` counts how many of the
locations `(idx << len) | code` have been processed, in ascending `idx`
order; a location is only written when its valid bit (0x8000) is clear. -/
def fillExt (len code sym : Nat) : Nat → (Nat → Nat) → Nat → Nat
  | 0, t => t
  | j + 1, t =>
    if fillExt len code sym j t (((j + 1) <<< len) ||| code) &&& 0x8000 ≠ 0 then
      fillExt len code sym j t
    else
      fun i => if i = ((j + 1) <<< len) ||| code then sym ||| 0x8000
        else fillExt len code sym j t i

/-- One iteration of the outer loop of `BuildHuffmanCodes`: the unconditional
primary store `hcodes[cip.code] = cip.index | 0x8000` followed by the fill
loop over the `2 ^ (max_bits - len) - 1` extensions. -/
def insertCode (lens : List Nat) (maxBits : Nat) (t : Nat → Nat)
    (cip : CodeIndexPair) : Nat → Nat :=
  fillExt (lens.getD cip.index 0) cip.code cip.index
    (2 ^ (maxBits - lens.getD cip.index 0) - 1)
    (fun i => if i = cip.code then cip.index ||| 0x8000 else t i)

/-- `HuffmanTable::BuildHuffmanCodes`: build the code/index pairs, sort them
by descending code length (the `std::sort` with comparator
`lens[a.index] > lens[b.index]`; `std::sort` leaves the order among valid
descending arrangements unspecified, and the model picks a stable insertion
sort), and fill the zeroed `hcodes` array.  The array is modelled as a total
function out of `Nat`; the source only reads indices below `2 ^ max_bits`. -/
def buildHuffmanCodes (lens : List Nat) : Option ((Nat → Nat) × Nat) :=
  (initHuffmanCodes lens).map fun pm =>
    ((List.insertionSort
        (fun a b => lens.getD b.index 0 ≤ lens.getD a.index 0) pm.1).foldl
      (insertCode lens pm.2) fun _ => 0, pm.2)

/-- `HuffmanTable::CodeAlphabet` from `huffman_table.h`.
Modelled from the spec: `huffman_table.h` is not in `src/`; the data model
(§3) stores the decoded symbol in bits 0..14 of a forward-table entry with a
valid bit at bit 15, and §4.3 looks up `max_bits` input bits and reports the
length of the decoded symbol as the number of bits to drop. -/
def codeAlphabet (codeLens : List Nat) (t : Nat → Nat) (bits : Nat) :
    Option (Nat × Nat) :=
  if t bits &&& 0x8000 ≠ 0 then
    some (t bits &&& 0x7FFF, codeLens.getD (t bits &&& 0x7FFF) 0)
  else none

/-! ## The reverse table (`BuildHuffmanReverseCodes`) -/

/-- The fill loop of `BuildHuffmanReverseCodes`: walk slots `idx, idx+1, ...`
(`n` of them) against the index-sorted pair list; a slot equal to the head
index receives its code, all others 0. -/
def fillRev (idx : Nat) : Nat → List CodeIndexPair → List Nat
  | 0, _ => []
  | n + 1, [] => 0 :: fillRev (idx + 1) n []
  | n + 1, p :: ps =>
    if p.index = idx then p.code :: fillRev (idx + 1) n ps
    else 0 :: fillRev (idx + 1) n (p :: ps)

/-- `HuffmanTable::BuildHuffmanReverseCodes`: build the code/index pairs,
sort ascending by symbol index, and fill `rcodes` (sized like `lens` at every
call site). -/
def buildHuffmanReverseCodes (lens : List Nat) : Option (List Nat × Nat) :=
  (initHuffmanCodes lens).map fun pm =>
    (fillRev 0 lens.length
      (List.insertionSort (fun a b => a.index ≤ b.index) pm.1), pm.2)

/-! ## The code-length sequence loops (`BuildHuffmanCodeLengths`)

The `BitReader` overload reads DEFLATE bits and emits expanded puff bytes;
the `BitWriter` overload reads puff bytes and re-emits DEFLATE bits.  Both
loops advance a strictly increasing index `idx` toward `num_codes`; they are
modelled with a fuel argument, and every call site passes `numCodes` as fuel,
which dominates the iteration count, so the fuel-exhaustion branch (an
arbitrary error) is unreachable there. -/

/-- `HuffmanTable::CodeHuffman` from `huffman_table.h`.
Modelled from the spec: `huffman_table.h` is not in `src/`; §4.3 and the data
model (§3) describe the reverse table as indexed by symbol, holding the
bit-reversed canonical code emitted over the code length of that symbol. -/
def codeHuffman (cl : List Nat) (rc : List Nat) (code : Nat) :
    Option (Nat × Nat) :=
  if code < cl.length then some (rc.getD code 0, cl.getD code 0) else none

/-- Decidable equality for `Except` results, used to evaluate the model on
concrete inputs. -/
instance {ε α : Type} [DecidableEq ε] [DecidableEq α] :
    DecidableEq (Except ε α)
  | .error e1, .error e2 =>
    if h : e1 = e2 then .isTrue (by rw [h]) else
      .isFalse (fun hc => h (Except.error.inj hc))
  | .error _, .ok _ => .isFalse (fun hc => Except.noConfusion hc)
  | .ok _, .error _ => .isFalse (fun hc => Except.noConfusion hc)
  | .ok a1, .ok a2 =>
    if h : a1 = a2 then .isTrue (by rw [h]) else
      .isFalse (fun hc => h (Except.ok.inj hc))

/-- Prepend one emitted puff byte to the result of the rest of the decode
loop. -/
def prependByte (b : Nat) :
    Except PErr (List Nat × List Nat × Bits) →
    Except PErr (List Nat × List Nat × Bits)
  | .ok (bytes, lensOut, rest) => .ok (b :: bytes, lensOut, rest)
  | .error e => .error e

/-- `BuildHuffmanCodeLengths` (BitReader overload, lines 328-399): the state
is the running symbol index `idx`, the accumulated `lens` vector, the
remaining output-buffer capacity (`index < *length` becomes `capLeft ≠ 0`
with `capLeft` decremented per emitted byte), and the remaining bit stream.
Returns the puff bytes emitted from this state on, the final `lens`, and the
remaining bits. -/
def bhclDec (cl : List Nat) (hc : Nat → Nat) (maxBits numCodes : Nat) :
    Nat → Nat → List Nat → Nat → Bits →
    Except PErr (List Nat × List Nat × Bits)
  | 0, idx, lensAcc, _, s =>
    if idx < numCodes then .error .insufficientInput else .ok ([], lensAcc, s)
  | fuel + 1, idx, lensAcc, capLeft, s =>
    if idx < numCodes then
      if maxBits ≤ s.length then
        match codeAlphabet cl hc (readBits maxBits s) with
        | none => .error .invalidInput
        | some (code, nbits) =>
          if capLeft = 0 then .error .insufficientOutput
          else
            if code < 16 then
              prependByte code
                (bhclDec cl hc maxBits numCodes fuel (idx + 1)
                  (lensAcc ++ [code]) (capLeft - 1) (dropBits nbits s))
            else if code < 19 then
              if code = 16 then
                if idx = 0 then .error .invalidInput
                else if 2 ≤ (dropBits nbits s).length then
                  prependByte (16 + readBits 2 (dropBits nbits s))
                    (bhclDec cl hc maxBits numCodes fuel
                      (idx + (3 + readBits 2 (dropBits nbits s)))
                      (lensAcc ++ List.replicate
                        (3 + readBits 2 (dropBits nbits s))
                        (lensAcc.getD (idx - 1) 0))
                      (capLeft - 1) (dropBits 2 (dropBits nbits s)))
                else .error .insufficientInput
              else if code = 17 then
                if 3 ≤ (dropBits nbits s).length then
                  prependByte (20 + readBits 3 (dropBits nbits s))
                    (bhclDec cl hc maxBits numCodes fuel
                      (idx + (3 + readBits 3 (dropBits nbits s)))
                      (lensAcc ++ List.replicate
                        (3 + readBits 3 (dropBits nbits s)) 0)
                      (capLeft - 1) (dropBits 3 (dropBits nbits s)))
                else .error .insufficientInput
              else
                if 7 ≤ (dropBits nbits s).length then
                  prependByte (28 + readBits 7 (dropBits nbits s))
                    (bhclDec cl hc maxBits numCodes fuel
                      (idx + (11 + readBits 7 (dropBits nbits s)))
                      (lensAcc ++ List.replicate
                        (11 + readBits 7 (dropBits nbits s)) 0)
                      (capLeft - 1) (dropBits 7 (dropBits nbits s)))
                else .error .insufficientInput
            else .error .invalidInput
      else .error .insufficientInput
    else .ok ([], lensAcc, s)

/-- Prepend consumed-byte count and written bits to the result of the rest
of the encode loop. -/
def prependEnc (n : Nat) (w : Bits) :
    Except PErr (Nat × List Nat × Bits) →
    Except PErr (Nat × List Nat × Bits)
  | .ok (consumed, lensOut, bits) => .ok (n + consumed, lensOut, w ++ bits)
  | .error e => .error e

/-- `BuildHuffmanCodeLengths` (BitWriter overload, lines 502-563): the state
is the running symbol index `idx`, the accumulated `lens` vector, the
remaining puff bytes, and the remaining readable byte count (`index <
*length` becomes `avail ≠ 0`).  The `BitWriter` is modelled with unlimited
output capacity (it is not in `src/`; per spec §4.2 `WriteBits(n, v)` packs
the low `n` bits of `v` LSB-first), so its `InsufficientOutput` failure paths
are not modelled.  Returns the bytes consumed, the final `lens`, and the
bits written. -/
def bhclEnc (cl : List Nat) (rc : List Nat) (numCodes : Nat) :
    Nat → Nat → List Nat → List Nat → Nat →
    Except PErr (Nat × List Nat × Bits)
  | 0, idx, lensAcc, _, _ =>
    if idx < numCodes then .error .insufficientInput else .ok (0, lensAcc, [])
  | fuel + 1, idx, lensAcc, buf, avail =>
    if idx < numCodes then
      if avail = 0 then .error .insufficientInput
      else
        if buf.headD 0 ≤ 155 then
          match codeHuffman cl rc
              (if buf.headD 0 < 16 then buf.headD 0
               else if buf.headD 0 < 20 then 16
               else if buf.headD 0 < 28 then 17 else 18) with
          | none => .error .invalidInput
          | some (hcode, nbits) =>
            if (if buf.headD 0 < 16 then buf.headD 0
                else if buf.headD 0 < 20 then 16
                else if buf.headD 0 < 28 then 17 else 18) < 16 then
              prependEnc 1 (natBits nbits hcode)
                (bhclEnc cl rc numCodes fuel (idx + 1)
                  (lensAcc ++ [buf.headD 0]) buf.tail (avail - 1))
            else if (if buf.headD 0 < 16 then buf.headD 0
                else if buf.headD 0 < 20 then 16
                else if buf.headD 0 < 28 then 17 else 18) = 16 then
              if idx = 0 then .error .invalidInput
              else
                prependEnc 1 (natBits nbits hcode ++ natBits 2 (buf.headD 0 - 16))
                  (bhclEnc cl rc numCodes fuel (idx + (3 + (buf.headD 0 - 16)))
                    (lensAcc ++ List.replicate (3 + (buf.headD 0 - 16))
                      (lensAcc.getD (idx - 1) 0)) buf.tail (avail - 1))
            else if (if buf.headD 0 < 16 then buf.headD 0
                else if buf.headD 0 < 20 then 16
                else if buf.headD 0 < 28 then 17 else 18) = 17 then
              prependEnc 1 (natBits nbits hcode ++ natBits 3 (buf.headD 0 - 20))
                (bhclEnc cl rc numCodes fuel (idx + (3 + (buf.headD 0 - 20)))
                  (lensAcc ++ List.replicate (3 + (buf.headD 0 - 20)) 0)
                  buf.tail (avail - 1))
            else
              prependEnc 1 (natBits nbits hcode ++ natBits 7 (buf.headD 0 - 28))
                (bhclEnc cl rc numCodes fuel (idx + (11 + (buf.headD 0 - 28)))
                  (lensAcc ++ List.replicate (11 + (buf.headD 0 - 28)) 0)
                  buf.tail (avail - 1))
        else .error .invalidInput
    else .ok (0, lensAcc, [])

/-- The meta code-length array of the C9 scenario: symbols 5 and 16 have
code length 1, every other symbol none. -/
def metaLens9 : List Nat :=
  [0, 0, 0, 0, 0, 1, 0, 0, 0, 0, 0, 0, 0, 0, 0, 0, 1, 0, 0]

/-! ## The dynamic-header transcoder (`BuildDynamicHuffmanTable`) -/

/-- `kPermutations` (lines 18-19). -/
def kPermutations : List Nat :=
  [16, 17, 18, 0, 8, 7, 9, 6, 10, 5, 11, 4, 12, 3, 13, 2, 14, 1, 15]

/-- `CheckHuffmanArrayLengths` from `huffman_table.h`.
Modelled from the spec: `huffman_table.h` is not in `src/`; §4.3 validates
`HLIT + 257 ≤ 286`, `HDIST + 1 ≤ 30`, `HCLEN + 4 ≤ 19`. -/
def checkHuffmanArrayLengths (numLitLen numDistance numCodes : Nat) : Bool :=
  decide (numLitLen ≤ 286) && decide (numDistance ≤ 30) &&
    decide (numCodes ≤ 19)

/-- The meta code-length array `code_lens_` after the permuted-assignment
loop: slot `kPermutations[idx]` receives the `idx`-th read 3-bit value, the
slots beyond `num_codes` are zeroed. -/
def codeLensFromMeta (vs : List Nat) : List Nat :=
  (List.range 19).map fun j => vs.getD (kPermutations.indexOf j) 0

/-- The meta-code read loop of the BitReader overload: `num_codes` 3-bit
values in permutation order. -/
def readMeta : Nat → Bits → Except PErr (List Nat × Bits)
  | 0, s => .ok ([], s)
  | n + 1, s =>
    if 3 ≤ s.length then
      match readMeta n (dropBits 3 s) with
      | .ok (vs, rest) => .ok (readBits 3 s :: vs, rest)
      | .error e => .error e
    else .error .insufficientInput

/-- Packing of the meta code lengths, two per puff byte, high nibble first;
an odd count pads the last byte with a zero low nibble (lines 267-283). -/
def packNibbles : List Nat → List Nat
  | [] => []
  | [v] => [v <<< 4]
  | v :: w :: rest => ((v <<< 4) ||| w) :: packNibbles rest

/-- Nibble unpacking of the BitWriter overload (lines 442-456): `n` meta
code lengths, high nibble first. -/
def unpackNibbles : Nat → List Nat → List Nat
  | 0, _ => []
  | 1, bytes => [bytes.headD 0 >>> 4]
  | n + 2, bytes =>
    (bytes.headD 0 >>> 4) :: (bytes.headD 0 &&& 0x0F) ::
      unpackNibbles n bytes.tail

/-- `HuffmanTable::BuildDynamicHuffmanTable` (BitReader overload, lines
217-326): DEFLATE header bits to puff header bytes.  Returns the puff bytes
written (`*length` becomes their count), the literal/length and distance
code-length arrays, and the remaining bit stream. -/
def buildDynamicHuffmanTableDec (s : Bits) (cap : Nat) :
    Except PErr (List Nat × List Nat × List Nat × Bits) :=
  if cap < 3 then .error .insufficientOutput
  else if s.length < 14 then .error .insufficientInput
  else
    if checkHuffmanArrayLengths (readBits 5 s + 257)
        (readBits 5 (dropBits 5 s) + 1)
        (readBits 4 (dropBits 5 (dropBits 5 s)) + 4) then
      if cap - 3 < (readBits 4 (dropBits 5 (dropBits 5 s)) + 4 + 1) / 2 then
        .error .insufficientOutput
      else
        match readMeta (readBits 4 (dropBits 5 (dropBits 5 s)) + 4)
            (dropBits 4 (dropBits 5 (dropBits 5 s))) with
        | .error e => .error e
        | .ok (vs, s4) =>
          match buildHuffmanCodes (codeLensFromMeta vs) with
          | none => .error .invalidInput
          | some (hc, cmb) =>
            match bhclDec (codeLensFromMeta vs) hc cmb
                (readBits 5 s + 257) (readBits 5 s + 257) 0 []
                (cap - (3 + (readBits 4 (dropBits 5 (dropBits 5 s)) + 4 + 1) / 2))
                s4 with
            | .error e => .error e
            | .ok (litBytes, litLens, s5) =>
              if (buildHuffmanCodes litLens).isSome then
                match bhclDec (codeLensFromMeta vs) hc cmb
                    (readBits 5 (dropBits 5 s) + 1)
                    (readBits 5 (dropBits 5 s) + 1) 0 []
                    (cap - (3 + (readBits 4 (dropBits 5 (dropBits 5 s)) + 4 + 1) / 2
                      + litBytes.length)) s5 with
                | .error e => .error e
                | .ok (distBytes, distLens, s6) =>
                  if (buildHuffmanCodes distLens).isSome then
                    .ok ([readBits 5 s, readBits 5 (dropBits 5 s),
                      readBits 4 (dropBits 5 (dropBits 5 s))] ++
                      packNibbles vs ++ litBytes ++ distBytes,
                      litLens, distLens, s6)
                  else .error .invalidInput
              else .error .invalidInput
    else .error .invalidInput

/-- `HuffmanTable::BuildDynamicHuffmanTable` (BitWriter overload, lines
401-500) without its final whole-buffer-consumed check: puff header bytes to
DEFLATE bits.  Returns the byte count consumed (`index`), the bits written,
and the two code-length arrays. -/
def buildDynHTEncCore (buffer : List Nat) (length : Nat) :
    Except PErr (Nat × Bits × List Nat × List Nat) :=
  if length < 3 then .error .insufficientInput
  else
    if checkHuffmanArrayLengths (buffer.getD 0 0 + 257) (buffer.getD 1 0 + 1)
        (buffer.getD 2 0 + 4) then
      if length - 3 < (buffer.getD 2 0 + 4 + 1) / 2 then
        .error .insufficientInput
      else
        match buildHuffmanReverseCodes
            (codeLensFromMeta (unpackNibbles (buffer.getD 2 0 + 4)
              (buffer.drop 3))) with
        | none => .error .invalidInput
        | some (rc, cmb) =>
          match bhclEnc (codeLensFromMeta (unpackNibbles (buffer.getD 2 0 + 4)
              (buffer.drop 3))) rc (buffer.getD 0 0 + 257)
              (buffer.getD 0 0 + 257) 0 []
              (buffer.drop (3 + (buffer.getD 2 0 + 4 + 1) / 2))
              (length - (3 + (buffer.getD 2 0 + 4 + 1) / 2)) with
          | .error e => .error e
          | .ok (consumed1, litLens, wl) =>
            if (buildHuffmanReverseCodes litLens).isSome then
              match bhclEnc (codeLensFromMeta
                  (unpackNibbles (buffer.getD 2 0 + 4) (buffer.drop 3))) rc
                  (buffer.getD 1 0 + 1) (buffer.getD 1 0 + 1) 0 []
                  (buffer.drop (3 + (buffer.getD 2 0 + 4 + 1) / 2 + consumed1))
                  (length - (3 + (buffer.getD 2 0 + 4 + 1) / 2 + consumed1)) with
              | .error e => .error e
              | .ok (consumed2, distLens, wd) =>
                if (buildHuffmanReverseCodes distLens).isSome then
                  .ok (3 + (buffer.getD 2 0 + 4 + 1) / 2 + consumed1 + consumed2,
                    natBits 5 (buffer.getD 0 0) ++ natBits 5 (buffer.getD 1 0) ++
                      natBits 4 (buffer.getD 2 0) ++
                      ((unpackNibbles (buffer.getD 2 0 + 4)
                        (buffer.drop 3)).map (natBits 3)).join ++ wl ++ wd,
                    litLens, distLens)
                else .error .invalidInput
            else .error .invalidInput
    else .error .invalidInput

/-- `HuffmanTable::BuildDynamicHuffmanTable` (BitWriter overload) with its
final `length == index` check (line 497). -/
def buildDynamicHuffmanTableEnc (buffer : List Nat) (length : Nat) :
    Except PErr (Bits × List Nat × List Nat) :=
  match buildDynHTEncCore buffer length with
  | .error e => .error e
  | .ok r => if length = r.1 then .ok r.2 else .error .invalidInput

/-- The byte count consumed by the encode core, when it succeeds. -/
def consumedOf (e : Except PErr (Nat × Bits × List Nat × List Nat)) :
    Option Nat :=
  match e with
  | .ok r => some r.1
  | .error _ => none

theorem bitsVal_lt (l : Bits) : bitsVal l < 2 ^ l.length := by
  induction l with
  | nil => simp [bitsVal]
  | cons b rest ih =>
      simp only [bitsVal, List.length_cons, pow_succ]
      cases b <;> simp <;> omega

theorem natBits_length (n v : Nat) : (natBits n v).length = n := by
  induction n generalizing v with
  | zero => rfl
  | succ n ih => simp [natBits, ih]

theorem bitsVal_natBits (n v : Nat) : bitsVal (natBits n v) = v % 2 ^ n := by
  induction n generalizing v with
  | zero => simp [natBits, bitsVal, Nat.mod_one]
  | succ n ih =>
      have h1 : (if v % 2 = 1 then (1 : Nat) else 0) = v % 2 := by
        rcases Nat.mod_two_eq_zero_or_one v with h | h <;> simp [h]
      simp only [natBits, bitsVal, ih, decide_eq_true_eq, h1, pow_succ',
        Nat.mod_mul]

theorem natBits_bitsVal (l : Bits) : natBits l.length (bitsVal l) = l := by
  induction l with
  | nil => rfl
  | cons b rest ih =>
      simp only [List.length_cons, natBits, bitsVal]
      have h1 : ((if b then 1 else 0) + 2 * bitsVal rest) % 2 =
          if b then 1 else 0 := by
        cases b <;> simp [Nat.add_mul_mod_self_left]
      have h2 : ((if b then 1 else 0) + 2 * bitsVal rest) / 2 = bitsVal rest := by
        cases b <;> omega
      simp only [h1, h2, ih]
      cases b <;> simp

theorem bitsVal_append (a b : Bits) :
    bitsVal (a ++ b) = bitsVal a + 2 ^ a.length * bitsVal b := by
  induction a with
  | nil => simp [bitsVal]
  | cons x rest ih =>
      simp only [List.cons_append, bitsVal, List.length_cons, List.append_eq]
      rw [ih]
      ring

theorem bitsVal_take (l : Bits) (n : Nat) :
    bitsVal (l.take n) = bitsVal l % 2 ^ n := by
  rcases le_or_lt n l.length with h | h
  · have hlen : (l.take n).length = n := by simp [h]
    have hval : bitsVal l = bitsVal (l.take n) + 2 ^ n * bitsVal (l.drop n) := by
      conv_lhs => rw [(List.take_append_drop n l).symm]
      rw [bitsVal_append, hlen]
    have hlt : bitsVal (l.take n) < 2 ^ n := by
      have := bitsVal_lt (l.take n)
      rwa [hlen] at this
    rw [hval, Nat.add_mul_mod_self_left, Nat.mod_eq_of_lt hlt]
  · rw [List.take_of_length_le (le_of_lt h),
      Nat.mod_eq_of_lt (lt_of_lt_of_le (bitsVal_lt l)
        (Nat.pow_le_pow_right (by norm_num) (le_of_lt h)))]

/-! ## Facts about `maxBitsOf` and `oversubscribed` -/

theorem maxBitsAux_le (lens : List Nat) (n : Nat) : maxBitsAux lens n ≤ n := by
  induction n with
  | zero => simp [maxBitsAux]
  | succ n ih =>
      simp only [maxBitsAux]
      split
      · exact le_refl _
      · exact Nat.le_succ_of_le ih

theorem le_maxBitsAux (lens : List Nat) (L : Nat) (hL : 1 ≤ L) :
    ∀ n, L ≤ n → lenCount lens L ≠ 0 → L ≤ maxBitsAux lens n := by
  intro n
  induction n with
  | zero => intro h _; omega
  | succ n ih =>
      intro hle hcnt
      simp only [maxBitsAux]
      split
      · exact hle
      · rename_i hne
        have : L ≠ n + 1 := fun h => hne (h ▸ hcnt)
        exact ih (by omega) hcnt

theorem le_maxBitsOf (lens : List Nat) (L : Nat) (hL : 1 ≤ L)
    (hle : L ≤ kMaxHuffmanBits) (hcnt : lenCount lens L ≠ 0) :
    L ≤ maxBitsOf lens :=
  le_maxBitsAux lens L hL kMaxHuffmanBits hle hcnt

theorem mem_le_maxBitsOf (lens : List Nat) (h15 : ∀ l ∈ lens, l ≤ kMaxHuffmanBits)
    (l : Nat) (hmem : l ∈ lens) (hne : l ≠ 0) : l ≤ maxBitsOf lens := by
  refine le_maxBitsOf lens l (by omega) (h15 l hmem) ?_
  simp only [lenCount, ne_eq, ← List.count_pos_iff] at hmem ⊢
  omega

theorem maxBitsAux_eq_zero (lens : List Nat) (hz : ∀ l ∈ lens, l = 0) :
    ∀ n, maxBitsAux lens n = 0 := by
  intro n
  induction n with
  | zero => rfl
  | succ n ih =>
      simp only [maxBitsAux]
      have : lenCount lens (n + 1) = 0 := by
        simp only [lenCount, List.count_eq_zero]
        intro h
        exact Nat.succ_ne_zero n (hz _ h)
      simp [this, ih]

theorem oversubscribed_eq_true (lens : List Nat)
    (h15 : ∀ l ∈ lens, l ≤ kMaxHuffmanBits) (L : Nat) (hL : 1 ≤ L)
    (hover : 2 ^ L < lenCount lens L) : oversubscribed lens = true := by
  have hmem : L ∈ lens := by
    rw [← List.count_pos_iff]
    have h1 : 0 < 2 ^ L := Nat.pos_pow_of_pos L (by norm_num)
    simp only [lenCount] at hover
    omega
  have hmb : L ≤ maxBitsOf lens :=
    mem_le_maxBitsOf lens h15 L hmem (by omega)
  simp only [oversubscribed, List.any_eq_true, decide_eq_true_eq]
  exact ⟨L, by rw [List.mem_range'_1]; omega, hover⟩

/-! ## Closed form of `InitHuffmanCodes` -/

theorem buildPairs_congr (ps : List (Nat × Nat)) :
    ∀ nc nc' : Nat → Nat, (∀ m, m ≠ 0 → nc m = nc' m) →
    buildPairs nc ps = buildPairs nc' ps := by
  induction ps with
  | nil => intro _ _ _; rfl
  | cons p rest ih =>
      intro nc nc' h
      obtain ⟨i, l⟩ := p
      by_cases hl : l = 0
      · simp only [buildPairs, hl, if_pos rfl]
        exact ih nc nc' h
      · simp only [buildPairs, if_neg hl]
        rw [h l hl, ih]
        intro m hm
        by_cases hml : m = l <;> simp [hml, h m hm, h l hl]

theorem buildPairs_closed (lens : List Nat) :
    ∀ (rest : List Nat) (k : Nat), lens.drop k = rest →
    buildPairs (fun m => firstCode lens m + (lens.take k).count m)
        (List.enumFrom k rest) =
      ((List.enumFrom k rest).filter fun p => decide (p.2 ≠ 0)).map fun p =>
        ⟨bitRev p.2 (canonCode lens p.1 p.2), p.1⟩ := by
  intro rest
  induction rest with
  | nil => intro k _; rfl
  | cons x rest2 ih =>
      intro k hk
      have hkx : lens[k]? = some x := by
        rw [← List.head?_drop, hk, List.head?_cons]
      have htake : lens.take (k + 1) = lens.take k ++ [x] := by
        rw [List.take_succ, hkx]
        rfl
      have hdrop : lens.drop (k + 1) = rest2 := by
        rw [← List.tail_drop, hk, List.tail_cons]
      have hcount : ∀ m, (lens.take (k + 1)).count m =
          (lens.take k).count m + if m = x then 1 else 0 := by
        intro m
        rw [htake, List.count_append]
        congr 1
        by_cases hmx : m = x <;> simp [List.count_cons, hmx]
      by_cases hx : x = 0
      · subst hx
        rw [List.enumFrom_cons]
        have hstep : buildPairs
            (fun m => firstCode lens m + (lens.take k).count m)
            ((k, 0) :: List.enumFrom (k + 1) rest2)
            = buildPairs (fun m => firstCode lens m + (lens.take (k + 1)).count m)
              (List.enumFrom (k + 1) rest2) := by
          simp only [buildPairs, if_pos rfl]
          exact buildPairs_congr _ _ _ (fun m hm => by simp [hcount m, hm])
        rw [hstep, ih (k + 1) hdrop, List.filter_cons]
        simp
      · rw [List.enumFrom_cons]
        have hfil : ((k, x) :: List.enumFrom (k + 1) rest2).filter
            (fun p => decide (p.2 ≠ 0))
            = (k, x) :: (List.enumFrom (k + 1) rest2).filter
              (fun p => decide (p.2 ≠ 0)) := by
          rw [List.filter_cons, if_pos (by simp [hx])]
        rw [hfil, List.map_cons]
        simp only [buildPairs, if_neg hx]
        refine List.cons_eq_cons.mpr ⟨rfl, ?_⟩
        rw [buildPairs_congr _ _
          (fun m => firstCode lens m + (lens.take (k + 1)).count m)
          (fun m hm => ?_), ih (k + 1) hdrop]
        simp only [hcount m]
        by_cases hml : m = x
        · rw [if_pos hml, if_pos hml, hml]
          omega
        · rw [if_neg hml, if_neg hml]
          omega

theorem buildPairs_enum (lens : List Nat) :
    buildPairs (firstCode lens) lens.enum = codesSpec lens := by
  have h0 : lens.enum = List.enumFrom 0 lens := rfl
  rw [codesSpec, h0, ← buildPairs_closed lens lens 0 rfl]
  exact buildPairs_congr _ _ _ (by intro m _; simp)

theorem initHuffmanCodes_eq_some (lens : List Nat)
    (h : oversubscribed lens = false) :
    initHuffmanCodes lens = some (codesSpec lens, maxBitsOf lens) := by
  rw [initHuffmanCodes, if_neg (by simp [h]), buildPairs_enum]

theorem initHuffmanCodes_some_inv (lens : List Nat) (pairs : List CodeIndexPair)
    (mb : Nat) (h : initHuffmanCodes lens = some (pairs, mb)) :
    oversubscribed lens = false ∧ pairs = codesSpec lens ∧ mb = maxBitsOf lens := by
  by_cases hov : oversubscribed lens
  · rw [initHuffmanCodes, if_pos hov] at h
    exact absurd h (by simp)
  · have hov2 : oversubscribed lens = false := by simpa using hov
    rw [initHuffmanCodes_eq_some lens hov2] at h
    have h3 := Option.some.inj h
    exact ⟨hov2, (congrArg Prod.fst h3).symm, (congrArg Prod.snd h3).symm⟩

/-! ## Kraft-sum facts -/

theorem kraft_cons_zero (rest : List Nat) : kraft (0 :: rest) = kraft rest := by
  simp [kraft, List.filter_cons]

theorem kraft_cons_ne (x : Nat) (rest : List Nat) (hx : x ≠ 0) :
    kraft (x :: rest) = 1 / 2 ^ x + kraft rest := by
  simp only [kraft, List.filter_cons, if_pos (by simp [hx] : decide (x ≠ 0) = true),
    List.map_cons, List.sum_cons]

theorem kraftScaled_cons_zero (rest : List Nat) :
    kraftScaled (0 :: rest) = kraftScaled rest := by
  simp [kraftScaled, List.filter_cons]

theorem kraftScaled_cons_ne (x : Nat) (rest : List Nat) (hx : x ≠ 0) :
    kraftScaled (x :: rest) = 2 ^ (kMaxHuffmanBits - x) + kraftScaled rest := by
  simp only [kraftScaled, List.filter_cons,
    if_pos (by simp [hx] : decide (x ≠ 0) = true), List.map_cons, List.sum_cons]

theorem kraftScaled_cast :
    ∀ lens : List Nat, (∀ l ∈ lens, l ≤ kMaxHuffmanBits) →
    (kraftScaled lens : ℚ) = kraft lens * 2 ^ 15 := by
  intro lens
  induction lens with
  | nil => intro _; simp [kraft, kraftScaled]
  | cons x rest ih =>
      intro h15
      have h15r : ∀ l ∈ rest, l ≤ kMaxHuffmanBits :=
        fun l hl => h15 l (List.mem_cons_of_mem x hl)
      have hxle : x ≤ 15 := h15 x (List.mem_cons_self x rest)
      by_cases hx : x = 0
      · subst hx
        rw [kraft_cons_zero, kraftScaled_cons_zero, ih h15r]
      · have e2 : kraftScaled (x :: rest) = 2 ^ (15 - x) + kraftScaled rest :=
          kraftScaled_cons_ne x rest hx
        rw [e2, kraft_cons_ne x rest hx, Nat.cast_add, ih h15r, add_mul]
        congr 1
        have hpow : (2 : ℚ) ^ (15 - x) * 2 ^ x = 2 ^ 15 := by
          rw [← pow_add]
          congr 1
          omega
        have h2x : (2 : ℚ) ^ x ≠ 0 := by positivity
        push_cast
        field_simp
        linarith [hpow]

theorem kraft_le_one_scaled (lens : List Nat)
    (h15 : ∀ l ∈ lens, l ≤ kMaxHuffmanBits) (hk : kraft lens ≤ 1) :
    kraftScaled lens ≤ 2 ^ 15 := by
  have h1 := kraftScaled_cast lens h15
  have h2 : (kraftScaled lens : ℚ) ≤ 2 ^ 15 := by
    rw [h1]
    calc kraft lens * 2 ^ 15 ≤ 1 * 2 ^ 15 :=
          mul_le_mul_of_nonneg_right hk (by positivity)
      _ = 2 ^ 15 := one_mul _
  exact_mod_cast h2

theorem count_le_kraftScaled (lens : List Nat) (L : Nat) (hL : 1 ≤ L) :
    lenCount lens L * 2 ^ (15 - L) ≤ kraftScaled lens := by
  induction lens with
  | nil => simp [lenCount, kraftScaled]
  | cons x rest ih =>
      by_cases hx : x = L
      · subst hx
        have e1 : lenCount (x :: rest) x = lenCount rest x + 1 := by
          simp [lenCount, List.count_cons]
        rw [e1, kraftScaled_cons_ne x rest (by omega), kMaxHuffmanBits,
          Nat.succ_mul]
        omega
      · have hLx : ¬L = x := fun h => hx h.symm
        have e1 : lenCount (x :: rest) L = lenCount rest L := by
          simp [lenCount, List.count_cons, hLx]
        by_cases hx0 : x = 0
        · subst hx0
          rw [e1, kraftScaled_cons_zero]
          exact ih
        · rw [e1, kraftScaled_cons_ne x rest hx0]
          have hpos : 0 < 2 ^ (kMaxHuffmanBits - x) :=
            Nat.pos_pow_of_pos _ (by norm_num)
          omega

theorem lenCount_le_of_scaled (lens : List Nat)
    (hks : kraftScaled lens ≤ 2 ^ 15) (L : Nat) (hL : 1 ≤ L) (hL15 : L ≤ 15) :
    lenCount lens L ≤ 2 ^ L := by
  have h1 := count_le_kraftScaled lens L hL
  have h2 : lenCount lens L * 2 ^ (15 - L) ≤ 2 ^ L * 2 ^ (15 - L) := by
    calc lenCount lens L * 2 ^ (15 - L) ≤ 2 ^ 15 := le_trans h1 hks
      _ = 2 ^ L * 2 ^ (15 - L) := by
          rw [← pow_add]
          congr 1
          omega
  exact Nat.le_of_mul_le_mul_right h2 (Nat.pos_pow_of_pos _ (by norm_num))

theorem oversubscribed_false_of_kraft (lens : List Nat)
    (h15 : ∀ l ∈ lens, l ≤ kMaxHuffmanBits) (hk : kraft lens ≤ 1) :
    oversubscribed lens = false := by
  have hks := kraft_le_one_scaled lens h15 hk
  rw [oversubscribed, List.any_eq_false]
  intro l hl
  rw [List.mem_range'_1] at hl
  have h3 : l ≤ 15 := by
    have hmb : maxBitsAux lens kMaxHuffmanBits ≤ 15 := maxBitsAux_le lens 15
    simp only [maxBitsOf] at hl
    omega
  simp only [decide_eq_true_eq, not_lt]
  exact lenCount_le_of_scaled lens hks l hl.1 h3

/-! ## Claim theorems for `InitHuffmanCodes` -/

/-- C4: for every accepted code-length array, the first canonical code per
length satisfies the recurrence `next_code[L] = (next_code[L-1] +
len_count[L-1]) << 1` with `next_code[0] = 0` (`len_count[0]` zeroed), and the
produced `codeindexpairs_` assign each nonzero symbol, in ascending symbol
order skipping zero lengths, the next code of its length, bit-reversed over
exactly `len` bits. -/
theorem claim_C4_canonical_assignment (lens : List Nat)
    (pairs : List CodeIndexPair) (mb : Nat)
    (h : initHuffmanCodes lens = some (pairs, mb)) :
    firstCode lens 0 = 0 ∧
    (∀ L, firstCode lens (L + 1) =
      (firstCode lens L + if L = 0 then 0 else lenCount lens L) * 2) ∧
    pairs = codesSpec lens := by
  obtain ⟨-, h2, -⟩ := initHuffmanCodes_some_inv lens pairs mb h
  exact ⟨rfl, fun L => rfl, h2⟩

/-- Witness for C4 at the concrete array `[2, 1, 3, 0, 3]`. -/
theorem claim_C4_witness :
    initHuffmanCodes [2, 1, 3, 0, 3] =
      some ([⟨1, 0⟩, ⟨0, 1⟩, ⟨3, 2⟩, ⟨7, 4⟩], 3) ∧
    [⟨1, 0⟩, ⟨0, 1⟩, ⟨3, 2⟩, ⟨7, 4⟩] = codesSpec [2, 1, 3, 0, 3] :=
  ⟨by decide,
    (claim_C4_canonical_assignment [2, 1, 3, 0, 3]
      [⟨1, 0⟩, ⟨0, 1⟩, ⟨3, 2⟩, ⟨7, 4⟩] 3 (by decide)).2.2⟩

/-- C5: a code-length array in which some length `L ≥ 1` has more than `2^L`
symbols is rejected by `InitHuffmanCodes` (the oversubscription scan). -/
theorem claim_C5_oversubscribed_rejected (lens : List Nat)
    (h15 : ∀ l ∈ lens, l ≤ kMaxHuffmanBits) (L : Nat) (hL : 1 ≤ L)
    (hover : 2 ^ L < lenCount lens L) :
    initHuffmanCodes lens = none := by
  rw [initHuffmanCodes, if_pos (oversubscribed_eq_true lens h15 L hL hover)]

/-- Witness for C5 at the concrete array `[1, 1, 1]` of the spec. -/
theorem claim_C5_witness :
    (∀ l ∈ [1, 1, 1], l ≤ kMaxHuffmanBits) ∧ 2 ^ 1 < lenCount [1, 1, 1] 1 ∧
    initHuffmanCodes [1, 1, 1] = none :=
  ⟨by decide, by decide,
    claim_C5_oversubscribed_rejected [1, 1, 1] (by decide) 1 (by decide)
      (by decide)⟩

/-- C8: an all-zero code-length array is accepted by `InitHuffmanCodes`
(it only logs a warning); the result has no code/index pairs and
`max_bits = 0`. -/
theorem claim_C8_all_zero_accepted (lens : List Nat)
    (hz : ∀ l ∈ lens, l = 0) :
    initHuffmanCodes lens = some ([], 0) := by
  have hmb : maxBitsOf lens = 0 := maxBitsAux_eq_zero lens hz kMaxHuffmanBits
  have hov : oversubscribed lens = false := by
    rw [oversubscribed, hmb]
    rfl
  rw [initHuffmanCodes_eq_some lens hov, hmb]
  have hcs : codesSpec lens = [] := by
    rw [codesSpec, List.map_eq_nil_iff, List.filter_eq_nil_iff]
    intro p hp
    have hp2 : p.2 ∈ lens := by
      obtain ⟨i, a⟩ := p
      have hp' : (i, a) ∈ List.enumFrom 0 lens := hp
      obtain ⟨-, -, h3⟩ := List.mem_enumFrom hp'
      rw [h3]
      apply List.getElem_mem
    simp [hz p.2 hp2]
  rw [hcs]

/-- Witness for C8 at the concrete array `[0, 0, 0]`. -/
theorem claim_C8_witness :
    (∀ l ∈ [0, 0, 0], l = 0) ∧ initHuffmanCodes [0, 0, 0] = some ([], 0) :=
  ⟨by decide, claim_C8_all_zero_accepted [0, 0, 0] (by decide)⟩

/-- C2 (amended): a code-length array (entries at most 15) whose Kraft sum is
at most 1 is accepted by `InitHuffmanCodes`.  The rejection half of the
original claim is refuted by `claim_C2_counterexample`. -/
theorem claim_C2_kraft_accepted (lens : List Nat)
    (h15 : ∀ l ∈ lens, l ≤ kMaxHuffmanBits) (hk : kraft lens ≤ 1) :
    (initHuffmanCodes lens).isSome := by
  rw [initHuffmanCodes_eq_some lens (oversubscribed_false_of_kraft lens h15 hk)]
  rfl

/-- Counterexample for C2 as stated: `[1, 1, 2]` violates the Kraft
inequality (sum `5/4 > 1`) yet `InitHuffmanCodes` accepts it, because the
per-length scan `len_count[L] ≤ 2^L` does not detect cross-length
oversubscription. -/
theorem claim_C2_counterexample :
    1 < kraft [1, 1, 2] ∧ (initHuffmanCodes [1, 1, 2]).isSome := by
  constructor
  · norm_num [kraft, List.filter_cons, List.sum_cons]
  · decide

/-- Witness for C2 (amended) at the concrete array `[1, 1]`. -/
theorem claim_C2_witness :
    (∀ l ∈ [1, 1], l ≤ kMaxHuffmanBits) ∧ kraft [1, 1] ≤ 1 ∧
    (initHuffmanCodes [1, 1]).isSome :=
  ⟨by decide, by norm_num [kraft, List.filter_cons, List.sum_cons],
    claim_C2_kraft_accepted [1, 1] (by decide)
      (by norm_num [kraft, List.filter_cons, List.sum_cons])⟩

/-! ## Facts about `bitRev` and disjoint bitwise or -/

theorem bitRev_lt (L : Nat) : ∀ c, bitRev L c < 2 ^ L := by
  induction L with
  | zero => intro c; simp [bitRev]
  | succ L ih =>
      intro c
      have h1 := ih (c / 2)
      have h2 : c % 2 ≤ 1 := by omega
      have h3 : c % 2 * 2 ^ L ≤ 2 ^ L := by
        calc c % 2 * 2 ^ L ≤ 1 * 2 ^ L := Nat.mul_le_mul_right _ h2
          _ = 2 ^ L := one_mul _
      simp only [bitRev, pow_succ]
      omega

theorem bitRev_high (L : Nat) : ∀ c, c < 2 ^ (L + 1) →
    bitRev (L + 1) c = 2 * bitRev L (c % 2 ^ L) + c / 2 ^ L := by
  induction L with
  | zero =>
      intro c hc
      simp only [bitRev, pow_zero, pow_one] at *
      omega
  | succ L ih =>
      intro c hc
      have hc2 : c / 2 < 2 ^ (L + 1) := by
        rw [Nat.div_lt_iff_lt_mul (by norm_num)]
        calc c < 2 ^ (L + 1 + 1) := hc
          _ = 2 ^ (L + 1) * 2 := by rw [pow_succ]
      have e1 : bitRev (L + 1 + 1) c =
          bitRev (L + 1) (c / 2) + c % 2 * 2 ^ (L + 1) := rfl
      rw [e1, ih (c / 2) hc2]
      have e2 : (c % 2 ^ (L + 1)) / 2 = (c / 2) % 2 ^ L := by
        rw [pow_succ', Nat.mod_mul]
        omega
      have e3 : c % 2 ^ (L + 1) % 2 = c % 2 := by
        apply Nat.mod_mod_of_dvd
        exact dvd_pow_self 2 (by omega)
      have e4 : c / 2 ^ (L + 1) = c / 2 / 2 ^ L := by
        rw [Nat.div_div_eq_div_mul, ← pow_succ']
      have e5 : bitRev (L + 1) (c % 2 ^ (L + 1)) =
          bitRev L (c / 2 % 2 ^ L) + c % 2 * 2 ^ L := by
        have edef : bitRev (L + 1) (c % 2 ^ (L + 1)) =
            bitRev L (c % 2 ^ (L + 1) / 2) + c % 2 ^ (L + 1) % 2 * 2 ^ L := rfl
        rw [edef, e2, e3]
      rw [e5, e4]
      have hp : (2 : Nat) ^ (L + 1) = 2 ^ L * 2 := pow_succ 2 L
      rw [hp]
      ring

theorem bitRev_bitRev (L : Nat) : ∀ c, c < 2 ^ L →
    bitRev L (bitRev L c) = c := by
  induction L with
  | zero => intro c hc; simp [bitRev]; omega
  | succ L ih =>
      intro c hc
      have hb : bitRev L (c / 2) < 2 ^ L := bitRev_lt L (c / 2)
      have hdef : bitRev (L + 1) c = bitRev L (c / 2) + c % 2 * 2 ^ L := rfl
      have hmod : bitRev (L + 1) c % 2 ^ L = bitRev L (c / 2) := by
        rw [hdef, Nat.add_mul_mod_self_right, Nat.mod_eq_of_lt hb]
      have hdiv : bitRev (L + 1) c / 2 ^ L = c % 2 := by
        rw [hdef, Nat.add_mul_div_right _ _ (Nat.pos_pow_of_pos _ (by norm_num)),
          Nat.div_eq_of_lt hb, Nat.zero_add]
      have hlt : bitRev (L + 1) c < 2 ^ (L + 1) := bitRev_lt (L + 1) c
      rw [bitRev_high L (bitRev (L + 1) c) hlt, hmod, hdiv,
        ih (c / 2) (by rw [pow_succ] at hc; omega)]
      omega

theorem bitRev_inj (L a b : Nat) (ha : a < 2 ^ L) (hb : b < 2 ^ L)
    (h : bitRev L a = bitRev L b) : a = b := by
  have := congrArg (bitRev L) h
  rwa [bitRev_bitRev L a ha, bitRev_bitRev L b hb] at this

theorem bitRev_mod (L : Nat) : ∀ (d c : Nat),
    bitRev (L + d) c % 2 ^ L = bitRev L (c / 2 ^ d) := by
  intro d
  induction d with
  | zero =>
      intro c
      rw [Nat.add_zero, pow_zero, Nat.div_one,
        Nat.mod_eq_of_lt (bitRev_lt L c)]
  | succ d ih =>
      intro c
      have e1 : bitRev (L + (d + 1)) c =
          bitRev (L + d) (c / 2) + c % 2 * 2 ^ (L + d) := rfl
      have e2 : c % 2 * 2 ^ (L + d) = c % 2 * 2 ^ d * 2 ^ L := by
        rw [pow_add]
        ring
      rw [e1, e2, Nat.add_mul_mod_self_right, ih (c / 2),
        Nat.div_div_eq_div_mul, ← pow_succ']

theorem testBit_mul_pow_add (a b k i : Nat) (hb : b < 2 ^ k) :
    (a * 2 ^ k + b).testBit i =
      if i < k then b.testBit i else a.testBit (i - k) := by
  rcases lt_or_ge i k with h | h
  · rw [if_pos h, Nat.testBit_to_div_mod, Nat.testBit_to_div_mod]
    have h1 : a * 2 ^ k = a * 2 ^ (k - i - 1) * 2 * 2 ^ i := by
      rw [mul_assoc, mul_assoc, ← pow_succ']
      rw [← pow_add]
      congr 2
      omega
    rw [h1, Nat.add_comm, Nat.add_mul_div_right _ _
      (Nat.pos_pow_of_pos _ (by norm_num))]
    have h2 : (b / 2 ^ i + a * 2 ^ (k - i - 1) * 2) % 2 = b / 2 ^ i % 2 := by
      omega
    rw [h2]
  · rw [if_neg (by omega), Nat.testBit_to_div_mod, Nat.testBit_to_div_mod]
    have h1 : (a * 2 ^ k + b) / 2 ^ i = a / 2 ^ (i - k) := by
      have e1 : (2 : Nat) ^ i = 2 ^ k * 2 ^ (i - k) := by
        rw [← pow_add]
        congr 1
        omega
      rw [e1, ← Nat.div_div_eq_div_mul, Nat.add_comm,
        Nat.add_mul_div_right _ _ (Nat.pos_pow_of_pos _ (by norm_num)),
        Nat.div_eq_of_lt hb, Nat.zero_add]
    rw [h1]

theorem lor_mul_pow_add (a b k : Nat) (hb : b < 2 ^ k) :
    (a <<< k) ||| b = a * 2 ^ k + b := by
  apply Nat.eq_of_testBit_eq
  intro i
  rw [Nat.testBit_lor, Nat.testBit_shiftLeft, testBit_mul_pow_add a b k i hb]
  rcases lt_or_ge i k with h | h
  · rw [if_pos h]
    have hd : decide (i ≥ k) = false := by
      simp only [decide_eq_false_iff_not]
      omega
    rw [hd, Bool.false_and, Bool.false_or]
  · rw [if_neg (by omega)]
    have hd : decide (i ≥ k) = true := by simpa using h
    have hbi : b.testBit i = false :=
      Nat.testBit_eq_false_of_lt
        (lt_of_lt_of_le hb (Nat.pow_le_pow_right (by norm_num) h))
    rw [hd, hbi, Bool.true_and, Bool.or_false]

theorem or_flag_eq_add (s : Nat) (hs : s < 2 ^ 15) :
    s ||| 0x8000 = s + 2 ^ 15 := by
  have h1 : (0x8000 : Nat) = 1 <<< 15 := by norm_num [Nat.shiftLeft_eq]
  rw [h1, Nat.lor_comm, lor_mul_pow_add 1 s 15 hs, one_mul, Nat.add_comm]

theorem flag_and_mask (s : Nat) (hs : s < 2 ^ 15) :
    (s ||| 0x8000) &&& 0x7FFF = s := by
  have h1 : (0x7FFF : Nat) = 2 ^ 15 - 1 := by norm_num
  rw [or_flag_eq_add s hs, h1, Nat.and_pow_two_sub_one_eq_mod,
    Nat.add_mod_right, Nat.mod_eq_of_lt hs]

theorem flag_and_bit (s : Nat) (hs : s < 2 ^ 15) :
    (s ||| 0x8000) &&& 0x8000 ≠ 0 := by
  have h80 : (0x8000 : Nat) = 2 ^ 15 := by norm_num
  rw [or_flag_eq_add s hs, h80, Nat.and_two_pow]
  have ht : (s + 2 ^ 15).testBit 15 = true := by
    rw [Nat.testBit_to_div_mod,
      Nat.add_div_right _ (Nat.pos_pow_of_pos _ (by norm_num)),
      Nat.div_eq_of_lt hs]
    rfl
  rw [ht]
  norm_num

theorem tailSum_succ (lens : List Nat) (a : Nat) (ha : a ≤ 15) :
    tailSum lens a = lenCount lens a * 2 ^ (15 - a) + tailSum lens (a + 1) := by
  have h1 : 16 - a = (16 - (a + 1)) + 1 := by omega
  rw [tailSum, h1]
  rfl

theorem tailSumAux_nil : ∀ (d a : Nat), tailSumAux [] a d = 0 := by
  intro d
  induction d with
  | zero => intro a; rfl
  | succ d ih =>
      intro a
      simp [tailSumAux, ih, lenCount]

theorem tailSumAux_cons (x : Nat) (rest : List Nat) :
    ∀ (d a : Nat), tailSumAux (x :: rest) a d =
      tailSumAux rest a d + (if a ≤ x ∧ x < a + d then 2 ^ (15 - x) else 0) := by
  intro d
  induction d with
  | zero =>
      intro a
      rw [if_neg (by omega)]
      rfl
  | succ d ih =>
      intro a
      have hc : lenCount (x :: rest) a = lenCount rest a +
          if x = a then 1 else 0 := by
        simp [lenCount, List.count_cons]
      simp only [tailSumAux, ih (a + 1), hc]
      by_cases hax : x = a
      · subst hax
        rw [if_pos rfl, if_neg (by omega), if_pos (by omega)]
        have hmul : (lenCount rest x + 1) * 2 ^ (15 - x) =
            lenCount rest x * 2 ^ (15 - x) + 2 ^ (15 - x) := by ring
        omega
      · simp only [if_neg hax, Nat.add_zero]
        have hiff : (a + 1 ≤ x ∧ x < a + 1 + d) ↔ (a ≤ x ∧ x < a + (d + 1)) := by
          omega
        by_cases h2 : a ≤ x ∧ x < a + (d + 1)
        · rw [if_pos (hiff.mpr h2), if_pos h2]
          omega
        · rw [if_neg (fun hcon => h2 (hiff.mp hcon)), if_neg h2]
          omega

theorem kraftScaled_eq_tailSum (lens : List Nat)
    (h15 : ∀ l ∈ lens, l ≤ kMaxHuffmanBits) :
    kraftScaled lens = tailSum lens 1 := by
  induction lens with
  | nil =>
      rw [tailSum, tailSumAux_nil]
      rfl
  | cons x rest ih =>
      have h15r : ∀ l ∈ rest, l ≤ kMaxHuffmanBits :=
        fun l hl => h15 l (List.mem_cons_of_mem x hl)
      have hxle : x ≤ 15 := h15 x (List.mem_cons_self x rest)
      by_cases hx : x = 0
      · subst hx
        have hcons : tailSum (0 :: rest) 1 = tailSum rest 1 := by
          rw [tailSum, tailSum, tailSumAux_cons, if_neg (by omega), Nat.add_zero]
        rw [kraftScaled_cons_zero, ih h15r, hcons]
      · have hcons : tailSum (x :: rest) 1 = tailSum rest 1 + 2 ^ (15 - x) := by
          rw [tailSum, tailSum, tailSumAux_cons, if_pos (by omega)]
        rw [kraftScaled_cons_ne x rest hx, ih h15r, hcons]
        simp only [kMaxHuffmanBits]
        omega

theorem firstCode_invariant (lens : List Nat)
    (h15 : ∀ l ∈ lens, l ≤ kMaxHuffmanBits) (hks : kraftScaled lens ≤ 2 ^ 15) :
    ∀ L, 1 ≤ L → L ≤ 15 →
      (firstCode lens L + lenCount lens L) * 2 ^ (15 - L) +
        tailSum lens (L + 1) ≤ 2 ^ 15 := by
  have htail : tailSum lens 1 ≤ 2 ^ 15 := by
    rw [← kraftScaled_eq_tailSum lens h15]
    exact hks
  intro L
  induction L with
  | zero => omega
  | succ L ih =>
      intro h1 h15L
      by_cases hL0 : L = 0
      · subst hL0
        show (firstCode lens 1 + lenCount lens 1) * 2 ^ 14 +
          tailSum lens 2 ≤ 2 ^ 15
        have hfc : firstCode lens 1 = 0 := rfl
        have ht1 : tailSum lens 1 = lenCount lens 1 * 2 ^ 14 + tailSum lens 2 := by
          have h := tailSum_succ lens 1 (by omega)
          norm_num at h
          exact h
        rw [hfc, Nat.zero_add]
        omega
      · have ihL := ih (by omega) (by omega)
        have hfc : firstCode lens (L + 1) =
            (firstCode lens L + lenCount lens L) * 2 := by
          simp only [firstCode, if_neg hL0]
        rw [tailSum_succ lens (L + 1) (by omega)] at ihL
        rw [hfc]
        have hp : (2 : Nat) ^ (15 - L) = 2 ^ (15 - (L + 1)) * 2 := by
          rw [← pow_succ]
          congr 1
          omega
        rw [hp] at ihL
        have hre : ((firstCode lens L + lenCount lens L) * 2 +
            lenCount lens (L + 1)) * 2 ^ (15 - (L + 1)) +
              tailSum lens (L + 1 + 1) =
            (firstCode lens L + lenCount lens L) * (2 ^ (15 - (L + 1)) * 2) +
              (lenCount lens (L + 1) * 2 ^ (15 - (L + 1)) +
                tailSum lens (L + 1 + 1)) := by
          ring
        rw [hre]
        exact ihL

theorem firstCode_add_count_le (lens : List Nat)
    (h15 : ∀ l ∈ lens, l ≤ kMaxHuffmanBits) (hks : kraftScaled lens ≤ 2 ^ 15)
    (L : Nat) (h1 : 1 ≤ L) (hL15 : L ≤ 15) :
    firstCode lens L + lenCount lens L ≤ 2 ^ L := by
  have h := firstCode_invariant lens h15 hks L h1 hL15
  have h2 : (firstCode lens L + lenCount lens L) * 2 ^ (15 - L) ≤
      2 ^ L * 2 ^ (15 - L) := by
    have hp : (2 : Nat) ^ L * 2 ^ (15 - L) = 2 ^ 15 := by
      rw [← pow_add]
      congr 1
      omega
    omega
  exact Nat.le_of_mul_le_mul_right h2 (Nat.pos_pow_of_pos _ (by norm_num))

theorem firstCode_mono (lens : List Nat) (L : Nat) (hL : 1 ≤ L) :
    ∀ M, L < M →
      (firstCode lens L + lenCount lens L) * 2 ^ (M - L) ≤ firstCode lens M := by
  intro M
  induction M with
  | zero => omega
  | succ M ih =>
      intro hLM
      by_cases hM : L = M
      · subst hM
        have h1 : L + 1 - L = 1 := by omega
        rw [h1, pow_one]
        have hfc : firstCode lens (L + 1) =
            (firstCode lens L + lenCount lens L) * 2 := by
          simp only [firstCode, if_neg (by omega : ¬L = 0)]
        omega
      · have hLM2 : L < M := by omega
        have ih2 := ih hLM2
        have h1 : M + 1 - L = (M - L) + 1 := by omega
        rw [h1, pow_succ]
        have h2 : (firstCode lens L + lenCount lens L) *
            (2 ^ (M - L) * 2) =
            ((firstCode lens L + lenCount lens L) * 2 ^ (M - L)) * 2 := by
          ring
        rw [h2]
        have h3 : firstCode lens M * 2 ≤ firstCode lens (M + 1) := by
          simp only [firstCode]
          split <;> omega
        omega

/-- The prefix count of a length `L` at a position holding `L` is strictly
below the total count. -/
theorem take_count_lt (lens : List Nat) (s : Nat) (hs : s < lens.length)
    (L : Nat) (hL : lens.getD s 0 = L) :
    (lens.take s).count L < lenCount lens L := by
  have hsplit : lenCount lens L = (lens.take s).count L +
      (lens.drop s).count L := by
    rw [lenCount, ← List.count_append, List.take_append_drop]
  have hdrop : lens.drop s = lens[s] :: lens.drop (s + 1) :=
    List.drop_eq_getElem_cons hs
  have hget : lens[s] = L := by
    rw [← hL, List.getD_eq_getElem?_getD, List.getElem?_eq_getElem hs]
    rfl
  have h1 : 1 ≤ (lens.drop s).count L := by
    rw [hdrop, hget, List.count_cons]
    simp
  omega

/-- The canonical code of a symbol fits in its length. -/
theorem canonCode_lt (lens : List Nat)
    (h15 : ∀ l ∈ lens, l ≤ kMaxHuffmanBits) (hks : kraftScaled lens ≤ 2 ^ 15)
    (s : Nat) (hs : s < lens.length) (L : Nat) (hL : lens.getD s 0 = L)
    (hne : L ≠ 0) :
    canonCode lens s L < 2 ^ L := by
  have hmem : L ∈ lens := by
    have := take_count_lt lens s hs L hL
    rw [← List.count_pos_iff]
    simp only [lenCount] at this
    omega
  have hL15 : L ≤ 15 := h15 L hmem
  have h1 := firstCode_add_count_le lens h15 hks L (by omega) hL15
  have h2 := take_count_lt lens s hs L hL
  rw [canonCode]
  omega

/-- Same length, different symbols: the earlier symbol holds the smaller
canonical code. -/
theorem canonCode_lt_canonCode (lens : List Nat) (s t : Nat) (hst : s < t)
    (ht : t < lens.length) (L : Nat) (hsL : lens.getD s 0 = L)
    (htL : lens.getD t 0 = L) :
    canonCode lens s L < canonCode lens t L := by
  have hs : s < lens.length := lt_trans hst ht
  have hget : lens[s] = L := by
    rw [← hsL, List.getD_eq_getElem?_getD, List.getElem?_eq_getElem hs]
    rfl
  have htake : lens.take (s + 1) = lens.take s ++ [L] := by
    rw [List.take_succ, List.getElem?_eq_getElem hs, hget]
    rfl
  have h1 : (lens.take (s + 1)).count L = (lens.take s).count L + 1 := by
    rw [htake, List.count_append]
    simp
  have h2 : (lens.take (s + 1)).count L ≤ (lens.take t).count L := by
    have hsub : List.Sublist (lens.take (s + 1)) (lens.take t) := by
      have he : lens.take (s + 1) = (lens.take t).take (s + 1) := by
        rw [List.take_take, min_eq_left (by omega)]
      rw [he]
      exact List.take_sublist _ _
    exact hsub.count_le L
  rw [canonCode, canonCode]
  omega

/-- Strictly longer codes live numerically above every shorter code once
shifted down, under the Kraft inequality. -/
theorem canonCode_div_gt (lens : List Nat)
    (h15 : ∀ l ∈ lens, l ≤ kMaxHuffmanBits) (hks : kraftScaled lens ≤ 2 ^ 15)
    (s t : Nat) (hs : s < lens.length) (ht : t < lens.length)
    (L M : Nat) (hsL : lens.getD s 0 = L) (htM : lens.getD t 0 = M)
    (hL0 : L ≠ 0) (hLM : L < M) :
    canonCode lens s L < canonCode lens t M / 2 ^ (M - L) := by
  have h1 : (firstCode lens L + lenCount lens L) * 2 ^ (M - L) ≤
      firstCode lens M := firstCode_mono lens L (by omega) M hLM
  have h2 : canonCode lens s L + 1 ≤ firstCode lens L + lenCount lens L := by
    have := take_count_lt lens s hs L hsL
    rw [canonCode]
    omega
  have h3 : firstCode lens M ≤ canonCode lens t M := by
    rw [canonCode]
    omega
  have h4 : (canonCode lens s L + 1) * 2 ^ (M - L) ≤ canonCode lens t M := by
    calc (canonCode lens s L + 1) * 2 ^ (M - L)
        ≤ (firstCode lens L + lenCount lens L) * 2 ^ (M - L) :=
          Nat.mul_le_mul_right _ h2
      _ ≤ firstCode lens M := h1
      _ ≤ canonCode lens t M := h3
  have h5 : canonCode lens s L + 1 ≤ canonCode lens t M / 2 ^ (M - L) :=
    (Nat.le_div_iff_mul_le (Nat.pos_pow_of_pos _ (by norm_num))).mpr h4
  omega

theorem loc_inj (len code j j' : Nat)
    (h : j * 2 ^ len + code = j' * 2 ^ len + code) : j = j' := by
  have hp : 0 < 2 ^ len := Nat.pos_pow_of_pos _ (by norm_num)
  have h2 : j * 2 ^ len = j' * 2 ^ len := by omega
  exact Nat.eq_of_mul_eq_mul_right hp h2

theorem loc_mod (len code j : Nat) (hcode : code < 2 ^ len) :
    (j * 2 ^ len + code) % 2 ^ len = code := by
  have he : j * 2 ^ len + code = 2 ^ len * j + code := by ring
  rw [he, Nat.mul_add_mod, Nat.mod_eq_of_lt hcode]

theorem mod_decompose (len code i : Nat) (hm : i % 2 ^ len = code) :
    i = (i / 2 ^ len) * 2 ^ len + code := by
  have h1 := Nat.div_add_mod i (2 ^ len)
  have h2 : (i / 2 ^ len) * 2 ^ len = 2 ^ len * (i / 2 ^ len) :=
    Nat.mul_comm _ _
  omega

theorem fillExt_miss (len code sym : Nat) (hcode : code < 2 ^ len) :
    ∀ (n : Nat) (t : Nat → Nat) (i : Nat),
      (∀ j, 1 ≤ j → j ≤ n → i ≠ j * 2 ^ len + code) →
      fillExt len code sym n t i = t i := by
  intro n
  induction n with
  | zero => intro t i _; rfl
  | succ n ih =>
      intro t i hmiss
      have hloc : ((n + 1) <<< len) ||| code = (n + 1) * 2 ^ len + code :=
        lor_mul_pow_add (n + 1) code len hcode
      have hi : i ≠ ((n + 1) <<< len) ||| code := by
        rw [hloc]
        exact hmiss (n + 1) (by omega) (by omega)
      have hmiss2 : ∀ j, 1 ≤ j → j ≤ n → i ≠ j * 2 ^ len + code :=
        fun j h1 h2 => hmiss j h1 (by omega)
      simp only [fillExt]
      split
      · exact ih t i hmiss2
      · simp only [if_neg hi]
        exact ih t i hmiss2

theorem fillExt_sound (len code sym : Nat) (hcode : code < 2 ^ len) :
    ∀ (n : Nat) (t : Nat → Nat) (i : Nat),
      fillExt len code sym n t i = t i ∨
        (i % 2 ^ len = code ∧ fillExt len code sym n t i = sym ||| 0x8000) := by
  intro n
  induction n with
  | zero => intro t i; left; rfl
  | succ n ih =>
      intro t i
      have hloc : ((n + 1) <<< len) ||| code = (n + 1) * 2 ^ len + code :=
        lor_mul_pow_add (n + 1) code len hcode
      simp only [fillExt]
      split
      · exact ih t i
      · by_cases hi : i = ((n + 1) <<< len) ||| code
        · right
          constructor
          · rw [hi, hloc]
            exact loc_mod len code (n + 1) hcode
          · simp only [if_pos hi]
        · simp only [if_neg hi]
          exact ih t i

theorem fillExt_hit (len code sym : Nat) (hcode : code < 2 ^ len) :
    ∀ (n : Nat) (t : Nat → Nat) (j : Nat), 1 ≤ j → j ≤ n →
      t (j * 2 ^ len + code) &&& 0x8000 = 0 →
      fillExt len code sym n t (j * 2 ^ len + code) = sym ||| 0x8000 := by
  intro n
  induction n with
  | zero => intro t j h1 h2 _; omega
  | succ n ih =>
      intro t j h1 h2 hun
      have hloc : ((n + 1) <<< len) ||| code = (n + 1) * 2 ^ len + code :=
        lor_mul_pow_add (n + 1) code len hcode
      by_cases hj : j = n + 1
      · subst hj
        have hbefore : fillExt len code sym n t ((n + 1) * 2 ^ len + code) =
            t ((n + 1) * 2 ^ len + code) := by
          apply fillExt_miss len code sym hcode
          intro j2 hj1 hj2 heq
          exact absurd (loc_inj len code _ _ heq) (by omega)
        simp only [fillExt, hloc]
        rw [hbefore]
        rw [if_neg (by simp [hun])]
        simp
      · have hj2 : j ≤ n := by omega
        have hne : j * 2 ^ len + code ≠ (n + 1) * 2 ^ len + code := by
          intro heq
          exact absurd (loc_inj len code _ _ heq) (by omega)
        simp only [fillExt]
        split
        · exact ih t j h1 hj2 hun
        · simp only [hloc, if_neg hne]
          exact ih t j h1 hj2 hun

theorem insertCode_sound (lens : List Nat) (mb : Nat) (t : Nat → Nat)
    (p : CodeIndexPair) (hcode : p.code < 2 ^ (lens.getD p.index 0)) (i : Nat) :
    insertCode lens mb t p i = t i ∨
      (i % 2 ^ (lens.getD p.index 0) = p.code ∧
        insertCode lens mb t p i = p.index ||| 0x8000) := by
  rw [insertCode]
  rcases fillExt_sound (lens.getD p.index 0) p.code p.index hcode
      (2 ^ (mb - lens.getD p.index 0) - 1)
      (fun i => if i = p.code then p.index ||| 0x8000 else t i) i with h | h
  · rw [h]
    by_cases hi : i = p.code
    · right
      refine ⟨?_, if_pos hi⟩
      rw [hi, Nat.mod_eq_of_lt hcode]
    · left
      exact if_neg hi
  · right
    exact h

theorem insertCode_miss (lens : List Nat) (mb : Nat) (t : Nat → Nat)
    (p : CodeIndexPair) (hcode : p.code < 2 ^ (lens.getD p.index 0)) (i : Nat)
    (hmiss : i % 2 ^ (lens.getD p.index 0) ≠ p.code) :
    insertCode lens mb t p i = t i := by
  rcases insertCode_sound lens mb t p hcode i with h | h
  · exact h
  · exact absurd h.1 hmiss

theorem insertCode_complete (lens : List Nat) (mb : Nat) (t : Nat → Nat)
    (p : CodeIndexPair) (hcode : p.code < 2 ^ (lens.getD p.index 0))
    (hlen : lens.getD p.index 0 ≤ mb) (i : Nat) (hi : i < 2 ^ mb)
    (hm : i % 2 ^ (lens.getD p.index 0) = p.code)
    (hun : t i &&& 0x8000 = 0 ∨ i = p.code) :
    insertCode lens mb t p i = p.index ||| 0x8000 := by
  set len := lens.getD p.index 0 with hlendef
  have hdecomp : i = (i / 2 ^ len) * 2 ^ len + p.code := mod_decompose len p.code i hm
  by_cases hj0 : i / 2 ^ len = 0
  · have hip : i = p.code := by
      rw [hdecomp, hj0]
      ring
    rw [insertCode]
    have hfm : fillExt len p.code p.index (2 ^ (mb - len) - 1)
        (fun i2 => if i2 = p.code then p.index ||| 0x8000 else t i2) i =
        (fun i2 => if i2 = p.code then p.index ||| 0x8000 else t i2) i := by
      apply fillExt_miss len p.code p.index hcode
      intro j hj1 hj2 heq
      have hp2 : 0 < 2 ^ len := Nat.pos_pow_of_pos _ (by norm_num)
      rw [heq] at hj0
      have hcomm : j * 2 ^ len + p.code = p.code + j * 2 ^ len := by ring
      rw [hcomm, Nat.add_mul_div_right _ _ hp2, Nat.div_eq_of_lt hcode] at hj0
      omega
    rw [hfm]
    simp only [if_pos hip]
  · have hj1 : 1 ≤ i / 2 ^ len := Nat.one_le_iff_ne_zero.mpr hj0
    have hjle : i / 2 ^ len ≤ 2 ^ (mb - len) - 1 := by
      have hp2 : 0 < 2 ^ len := Nat.pos_pow_of_pos _ (by norm_num)
      have hlt : i / 2 ^ len < 2 ^ (mb - len) := by
        rw [Nat.div_lt_iff_lt_mul hp2, ← pow_add]
        have he : mb - len + len = mb := by omega
        rw [he]
        exact hi
      omega
    have hip : i ≠ p.code := by
      intro heq
      have : i % 2 ^ len = i := Nat.mod_eq_of_lt (heq ▸ hcode)
      rw [this] at hm
      rw [hm] at hj0
      rw [Nat.div_eq_of_lt hcode] at hj0
      exact hj0 rfl
    have hunl : t i &&& 0x8000 = 0 := by
      rcases hun with h | h
      · exact h
      · exact absurd h hip
    rw [insertCode]
    have hip2 : i / 2 ^ len * 2 ^ len + p.code ≠ p.code := by
      rw [← hdecomp]
      exact hip
    have ht1 : (fun i2 => if i2 = p.code then p.index ||| 0x8000 else t i2)
        (i / 2 ^ len * 2 ^ len + p.code) &&& 0x8000 = 0 := by
      simp only [if_neg hip2]
      rw [← hdecomp]
      exact hunl
    have := fillExt_hit len p.code p.index hcode (2 ^ (mb - len) - 1)
      (fun i2 => if i2 = p.code then p.index ||| 0x8000 else t i2)
      (i / 2 ^ len) hj1 hjle ht1
    rw [hdecomp]
    exact this

/-- Two distinct nonzero-length symbols never claim the same table slot
(ordered version). -/
theorem slot_unique_le (lens : List Nat)
    (h15 : ∀ l ∈ lens, l ≤ kMaxHuffmanBits) (hks : kraftScaled lens ≤ 2 ^ 15)
    (s t : Nat) (hs : s < lens.length) (ht : t < lens.length)
    (hsne : lens.getD s 0 ≠ 0) (htne : lens.getD t 0 ≠ 0) (hst : s ≠ t)
    (hle : lens.getD s 0 ≤ lens.getD t 0) (i : Nat)
    (h1 : i % 2 ^ (lens.getD s 0) =
      bitRev (lens.getD s 0) (canonCode lens s (lens.getD s 0)))
    (h2 : i % 2 ^ (lens.getD t 0) =
      bitRev (lens.getD t 0) (canonCode lens t (lens.getD t 0))) : False := by
  set L := lens.getD s 0 with hLdef
  set M := lens.getD t 0 with hMdef
  have hdM : M = L + (M - L) := by omega
  have hstep : i % 2 ^ L = bitRev L (canonCode lens t M / 2 ^ (M - L)) := by
    have hdvd : (2 : Nat) ^ L ∣ 2 ^ M := pow_dvd_pow 2 hle
    have e1 : i % 2 ^ L = (i % 2 ^ M) % 2 ^ L := (Nat.mod_mod_of_dvd i hdvd).symm
    rw [e1, h2]
    have e2 : bitRev M (canonCode lens t M) =
        bitRev (L + (M - L)) (canonCode lens t M) := by rw [← hdM]
    rw [e2, bitRev_mod]
  have hcs : canonCode lens s L < 2 ^ L :=
    canonCode_lt lens h15 hks s hs L rfl hsne
  have hct : canonCode lens t M < 2 ^ M :=
    canonCode_lt lens h15 hks t ht M rfl htne
  have hdiv_lt : canonCode lens t M / 2 ^ (M - L) < 2 ^ L := by
    rw [Nat.div_lt_iff_lt_mul (Nat.pos_pow_of_pos _ (by norm_num)), ← pow_add]
    have he : L + (M - L) = M := by omega
    rw [he]
    exact hct
  have heq : canonCode lens s L = canonCode lens t M / 2 ^ (M - L) := by
    apply bitRev_inj L _ _ hcs hdiv_lt
    rw [← h1, hstep]
  by_cases hLM : L = M
  · have hd0 : M - L = 0 := by omega
    rw [hd0, pow_zero, Nat.div_one] at heq
    rcases Nat.lt_or_ge s t with hlt | hge
    · have hgt : lens.getD t 0 = L := by omega
      have heq2 : canonCode lens s L = canonCode lens t L := by
        have h := heq
        rw [← hLM] at h
        exact h
      have hc := canonCode_lt_canonCode lens s t hlt ht L rfl hgt
      omega
    · have hlt2 : t < s := by omega
      have hgs : lens.getD s 0 = M := by omega
      have heq3 : canonCode lens s M = canonCode lens t M := by
        have h := heq
        rw [hLM] at h
        exact h
      have hc := canonCode_lt_canonCode lens t s hlt2 hs M rfl hgs
      omega
  · have hLM2 : L < M := by omega
    have := canonCode_div_gt lens h15 hks s t hs ht L M rfl rfl hsne hLM2
    omega

/-- Two distinct nonzero-length symbols never claim the same table slot. -/
theorem slot_unique (lens : List Nat)
    (h15 : ∀ l ∈ lens, l ≤ kMaxHuffmanBits) (hks : kraftScaled lens ≤ 2 ^ 15)
    (s t : Nat) (hs : s < lens.length) (ht : t < lens.length)
    (hsne : lens.getD s 0 ≠ 0) (htne : lens.getD t 0 ≠ 0) (hst : s ≠ t)
    (i : Nat) :
    ¬(i % 2 ^ (lens.getD s 0) =
        bitRev (lens.getD s 0) (canonCode lens s (lens.getD s 0)) ∧
      i % 2 ^ (lens.getD t 0) =
        bitRev (lens.getD t 0) (canonCode lens t (lens.getD t 0))) := by
  rintro ⟨h1, h2⟩
  rcases le_total (lens.getD s 0) (lens.getD t 0) with hle | hle
  · exact slot_unique_le lens h15 hks s t hs ht hsne htne hst hle i h1 h2
  · exact slot_unique_le lens h15 hks t s ht hs htne hsne
      (fun h => hst h.symm) hle i h2 h1

/-! ## The fold filling the forward table -/

theorem foldl_insert_untouched (lens : List Nat) (mb : Nat) :
    ∀ (Q : List CodeIndexPair) (t : Nat → Nat) (i : Nat),
      (∀ p ∈ Q, p.code < 2 ^ (lens.getD p.index 0)) →
      (∀ p ∈ Q, i % 2 ^ (lens.getD p.index 0) ≠ p.code) →
      Q.foldl (insertCode lens mb) t i = t i := by
  intro Q
  induction Q with
  | nil => intro t i _ _; rfl
  | cons q Q2 ih =>
      intro t i hwf hmiss
      rw [List.foldl_cons]
      rw [ih _ i (fun p hp => hwf p (List.mem_cons_of_mem q hp))
        (fun p hp => hmiss p (List.mem_cons_of_mem q hp))]
      exact insertCode_miss lens mb t q (hwf q (List.mem_cons_self q Q2)) i
        (hmiss q (List.mem_cons_self q Q2))

theorem foldl_insert_complete (lens : List Nat) (mb : Nat) :
    ∀ (Q : List CodeIndexPair) (t0 : Nat → Nat),
      (∀ p ∈ Q, lens.getD p.index 0 ≤ mb ∧
        p.code < 2 ^ (lens.getD p.index 0)) →
      List.Pairwise (fun p q => ∀ i2, ¬(i2 % 2 ^ (lens.getD p.index 0) = p.code ∧
        i2 % 2 ^ (lens.getD q.index 0) = q.code)) Q →
      (∀ i2 p, p ∈ Q → i2 % 2 ^ (lens.getD p.index 0) = p.code →
        t0 i2 &&& 0x8000 = 0) →
      ∀ i p, p ∈ Q → i < 2 ^ mb → i % 2 ^ (lens.getD p.index 0) = p.code →
      Q.foldl (insertCode lens mb) t0 i = p.index ||| 0x8000 := by
  intro Q
  induction Q with
  | nil => intro t0 _ _ _ i p hp; exact absurd hp (List.not_mem_nil p)
  | cons q Q2 ih =>
      intro t0 hwf hpw hinit i p hp hi hm
      rw [List.foldl_cons]
      have hwfq := hwf q (List.mem_cons_self q Q2)
      have hpw2 := (List.pairwise_cons.mp hpw).2
      have hpwq := (List.pairwise_cons.mp hpw).1
      rcases List.mem_cons.mp hp with hpq | hp2
      · subst hpq
        have hwrite : insertCode lens mb t0 p i = p.index ||| 0x8000 :=
          insertCode_complete lens mb t0 p hwfq.2 hwfq.1 i hi hm
            (Or.inl (hinit i p (List.mem_cons_self p Q2) hm))
        rw [foldl_insert_untouched lens mb Q2 _ i
          (fun p2 hp2 => (hwf p2 (List.mem_cons_of_mem p hp2)).2) ?_, hwrite]
        intro p2 hp2 hm2
        exact hpwq p2 hp2 i ⟨hm, hm2⟩
      · apply ih (insertCode lens mb t0 q)
          (fun p2 hp2 => hwf p2 (List.mem_cons_of_mem q hp2)) hpw2 ?_ i p hp2 hi hm
        intro i2 p2 hp2m hm2
        rcases insertCode_sound lens mb t0 q hwfq.2 i2 with h | h
        · rw [h]
          exact hinit i2 p2 (List.mem_cons_of_mem q hp2m) hm2
        · exact absurd ⟨h.1, hm2⟩ (hpwq p2 hp2m i2)

/-! ## Facts about `codesSpec` membership -/

theorem enumFrom_mem {α : Type} :
    ∀ (l : List α) (k s : Nat) (hs : s < l.length),
      (k + s, l[s]) ∈ List.enumFrom k l := by
  intro l
  induction l with
  | nil => intro k s hs; simp at hs
  | cons x rest ih =>
      intro k s hs
      cases s with
      | zero => simp [List.enumFrom_cons]
      | succ s =>
          rw [List.enumFrom_cons]
          refine List.mem_cons_of_mem _ ?_
          have := ih (k + 1) s (by simpa using hs)
          have he : k + 1 + s = k + (s + 1) := by omega
          rw [he] at this
          simpa using this

theorem getD_eq_getElem (lens : List Nat) (s : Nat) (hs : s < lens.length) :
    lens.getD s 0 = lens[s] := by
  rw [List.getD_eq_getElem?_getD, List.getElem?_eq_getElem hs]
  rfl

theorem codesSpec_mem_of (lens : List Nat) (s : Nat) (hs : s < lens.length)
    (hne : lens.getD s 0 ≠ 0) :
    (⟨bitRev (lens.getD s 0) (canonCode lens s (lens.getD s 0)), s⟩ :
      CodeIndexPair) ∈ codesSpec lens := by
  rw [codesSpec]
  apply List.mem_map.mpr
  refine ⟨(s, lens.getD s 0), ?_, rfl⟩
  apply List.mem_filter.mpr
  constructor
  · have hmem := enumFrom_mem lens 0 s hs
    rw [Nat.zero_add, ← getD_eq_getElem lens s hs] at hmem
    exact hmem
  · simpa using hne

theorem codesSpec_mem_wf (lens : List Nat) (p : CodeIndexPair)
    (hp : p ∈ codesSpec lens) :
    p.index < lens.length ∧ lens.getD p.index 0 ≠ 0 ∧
    p.code = bitRev (lens.getD p.index 0)
      (canonCode lens p.index (lens.getD p.index 0)) ∧
    p.code < 2 ^ (lens.getD p.index 0) := by
  rw [codesSpec] at hp
  obtain ⟨q, hq, hpq⟩ := List.mem_map.mp hp
  obtain ⟨hqm, hqf⟩ := List.mem_filter.mp hq
  obtain ⟨i, a⟩ := q
  have hqm2 : (i, a) ∈ List.enumFrom 0 lens := hqm
  obtain ⟨-, hilt, hia⟩ := List.mem_enumFrom hqm2
  have hilt2 : i < lens.length := by simpa using hilt
  have hia2 : a = lens.getD i 0 := by
    rw [getD_eq_getElem lens i hilt2]
    simpa using hia
  have hane : a ≠ 0 := by simpa using hqf
  subst hpq
  simp only
  rw [← hia2]
  exact ⟨hilt2, hane, rfl, bitRev_lt a _⟩

theorem pairwise_enumFrom_fst {α : Type} :
    ∀ (l : List α) (k : Nat),
      List.Pairwise (fun a b : Nat × α => a.1 < b.1) (List.enumFrom k l) := by
  intro l
  induction l with
  | nil => intro k; simp
  | cons x rest ih =>
      intro k
      rw [List.enumFrom_cons]
      refine List.Pairwise.cons ?_ (ih (k + 1))
      intro b hb
      obtain ⟨i, a⟩ := b
      have := (List.mem_enumFrom hb).1
      simpa using by omega

theorem codesSpec_pairwise_index (lens : List Nat) :
    List.Pairwise (fun p q : CodeIndexPair => p.index < q.index)
      (codesSpec lens) := by
  rw [codesSpec]
  apply List.pairwise_map.mpr
  have henum : List.Pairwise (fun a b : Nat × Nat => a.1 < b.1) lens.enum :=
    pairwise_enumFrom_fst lens 0
  exact List.Pairwise.sublist (List.filter_sublist _) henum

theorem buildHuffmanCodes_some_inv (lens : List Nat) (t : Nat → Nat) (mb : Nat)
    (h : buildHuffmanCodes lens = some (t, mb)) :
    oversubscribed lens = false ∧ mb = maxBitsOf lens ∧
    t = (List.insertionSort
        (fun a b => lens.getD b.index 0 ≤ lens.getD a.index 0)
        (codesSpec lens)).foldl
      (insertCode lens (maxBitsOf lens)) fun _ => 0 := by
  rw [buildHuffmanCodes] at h
  cases hinit : initHuffmanCodes lens with
  | none =>
      rw [hinit] at h
      exact absurd h (by simp)
  | some pm =>
      obtain ⟨pairs, mb2⟩ := pm
      obtain ⟨hov, hcs, hmb⟩ := initHuffmanCodes_some_inv lens pairs mb2 hinit
      rw [hinit] at h
      simp only [Option.map_some'] at h
      have h1 := congrArg Prod.fst (Option.some.inj h)
      have h2 := congrArg Prod.snd (Option.some.inj h)
      simp only at h1 h2
      subst hcs
      subst hmb
      exact ⟨hov, h2.symm, h1.symm⟩

theorem foldl_insert_sound (lens : List Nat) (mb : Nat) :
    ∀ (Q : List CodeIndexPair) (t0 : Nat → Nat) (i : Nat),
      (∀ p ∈ Q, p.code < 2 ^ (lens.getD p.index 0)) →
      Q.foldl (insertCode lens mb) t0 i = t0 i ∨
        ∃ p ∈ Q, i % 2 ^ (lens.getD p.index 0) = p.code ∧
          Q.foldl (insertCode lens mb) t0 i = p.index ||| 0x8000 := by
  intro Q
  induction Q with
  | nil => intro t0 i _; left; rfl
  | cons q Q2 ih =>
      intro t0 i hwf
      rw [List.foldl_cons]
      rcases ih (insertCode lens mb t0 q) i
          (fun p hp => hwf p (List.mem_cons_of_mem q hp)) with h | h
      · rcases insertCode_sound lens mb t0 q
            (hwf q (List.mem_cons_self q Q2)) i with h2 | h2
        · left
          rw [h, h2]
        · right
          exact ⟨q, List.mem_cons_self q Q2, h2.1, by rw [h, h2.2]⟩
      · obtain ⟨p, hp, hm, hval⟩ := h
        right
        exact ⟨p, List.mem_cons_of_mem q hp, hm, hval⟩

/-- Soundness of the filled forward table: every slot is either still zero or
holds `s | 0x8000` for the unique symbol `s` whose bit-reversed canonical code
matches the low bits of the slot index.  This holds for every accepted
code-length array, Kraft-valid or not, because the stored codes are produced
by the bit-reversal and always fit in their lengths. -/
theorem hcodes_sound (lens : List Nat) (t : Nat → Nat) (mb : Nat)
    (hb : buildHuffmanCodes lens = some (t, mb)) (i : Nat) :
    t i = 0 ∨ ∃ s, s < lens.length ∧ lens.getD s 0 ≠ 0 ∧
      t i = s ||| 0x8000 ∧
      i % 2 ^ (lens.getD s 0) =
        bitRev (lens.getD s 0) (canonCode lens s (lens.getD s 0)) := by
  obtain ⟨-, -, ht⟩ := buildHuffmanCodes_some_inv lens t mb hb
  set Q := List.insertionSort
    (fun a b => lens.getD b.index 0 ≤ lens.getD a.index 0)
    (codesSpec lens) with hQ
  have hperm : Q.Perm (codesSpec lens) := List.perm_insertionSort _ _
  have hwf : ∀ p ∈ Q, p.code < 2 ^ (lens.getD p.index 0) := by
    intro p hp
    exact (codesSpec_mem_wf lens p (hperm.mem_iff.mp hp)).2.2.2
  rcases foldl_insert_sound lens (maxBitsOf lens) Q (fun _ => 0) i hwf with h | h
  · left
    rw [ht]
    exact h
  · right
    obtain ⟨p, hp, hm, hval⟩ := h
    obtain ⟨hlt, hne, hcode, -⟩ := codesSpec_mem_wf lens p (hperm.mem_iff.mp hp)
    exact ⟨p.index, hlt, hne, by rw [ht]; exact hval, by rw [← hcode]; exact hm⟩

/-- C3 (amended): for a forward table built from an accepted code-length
array that also satisfies the Kraft inequality, every `max_bits`-bit index
whose low `lens[s]` bits equal the bit-reversed canonical code of a symbol
`s` with `lens[s] ≠ 0` holds the entry `s | 0x8000`, and decoding at that
index returns symbol `s` with `lens[s]` bits consumed.  The Kraft hypothesis
is forced by `claim_C3_counterexample`: acceptance alone is not enough. -/
theorem claim_C3_forward_table (lens : List Nat) (t : Nat → Nat) (mb : Nat)
    (h15 : ∀ l ∈ lens, l ≤ kMaxHuffmanBits) (hlen : lens.length ≤ 2 ^ 15)
    (hk : kraft lens ≤ 1) (hb : buildHuffmanCodes lens = some (t, mb))
    (s : Nat) (hs : s < lens.length) (hne : lens.getD s 0 ≠ 0)
    (i : Nat) (hi : i < 2 ^ mb)
    (hm : i % 2 ^ (lens.getD s 0) =
      bitRev (lens.getD s 0) (canonCode lens s (lens.getD s 0))) :
    t i = s ||| 0x8000 ∧ codeAlphabet lens t i = some (s, lens.getD s 0) := by
  have hks : kraftScaled lens ≤ 2 ^ 15 := kraft_le_one_scaled lens h15 hk
  obtain ⟨hov, hmb, ht⟩ := buildHuffmanCodes_some_inv lens t mb hb
  set Q := List.insertionSort
    (fun a b => lens.getD b.index 0 ≤ lens.getD a.index 0)
    (codesSpec lens) with hQ
  have hperm : Q.Perm (codesSpec lens) := List.perm_insertionSort _ _
  have hwf : ∀ p ∈ Q, lens.getD p.index 0 ≤ maxBitsOf lens ∧
      p.code < 2 ^ (lens.getD p.index 0) := by
    intro p hp
    obtain ⟨hlt, hne2, -, hcode⟩ := codesSpec_mem_wf lens p (hperm.mem_iff.mp hp)
    refine ⟨?_, hcode⟩
    apply mem_le_maxBitsOf lens h15
    · rw [getD_eq_getElem lens p.index hlt]
      exact List.getElem_mem _
    · exact hne2
  have hpwspec : List.Pairwise (fun p q : CodeIndexPair =>
      ∀ i2, ¬(i2 % 2 ^ (lens.getD p.index 0) = p.code ∧
        i2 % 2 ^ (lens.getD q.index 0) = q.code)) (codesSpec lens) := by
    have hpi := codesSpec_pairwise_index lens
    apply List.Pairwise.imp_of_mem ?_ hpi
    intro p q hpmem hqmem hlt i2 hcon
    obtain ⟨hplt, hpne, hpcode, -⟩ := codesSpec_mem_wf lens p hpmem
    obtain ⟨hqlt, hqne, hqcode, -⟩ := codesSpec_mem_wf lens q hqmem
    apply slot_unique lens h15 hks p.index q.index hplt hqlt hpne hqne
      (by omega) i2
    rw [← hpcode, ← hqcode]
    exact hcon
  have hpw : List.Pairwise (fun p q : CodeIndexPair =>
      ∀ i2, ¬(i2 % 2 ^ (lens.getD p.index 0) = p.code ∧
        i2 % 2 ^ (lens.getD q.index 0) = q.code)) Q := by
    apply hpwspec.perm hperm.symm
    intro p q hpq i2 hcon
    exact hpq i2 ⟨hcon.2, hcon.1⟩
  have hmem : (⟨bitRev (lens.getD s 0) (canonCode lens s (lens.getD s 0)), s⟩ :
      CodeIndexPair) ∈ Q :=
    hperm.mem_iff.mpr (codesSpec_mem_of lens s hs hne)
  have hval : t i = s ||| 0x8000 := by
    rw [ht]
    have := foldl_insert_complete lens (maxBitsOf lens) Q (fun _ => 0) hwf hpw
      (fun i2 p _ _ => by simp) i
      ⟨bitRev (lens.getD s 0) (canonCode lens s (lens.getD s 0)), s⟩ hmem
      (by rw [← hmb]; exact hi) hm
    exact this
  have hs15 : s < 2 ^ 15 := lt_of_lt_of_le hs hlen
  refine ⟨hval, ?_⟩
  rw [codeAlphabet, hval, if_pos (flag_and_bit s hs15), flag_and_mask s hs15]

/-- Counterexample for C3 as stated: `[1, 1, 2]` is accepted by
`BuildHuffmanCodes` (the per-length scan passes) although its Kraft sum
exceeds 1; index 0 matches the bit-reversed canonical code of symbol 2
(length 2) in its low two bits, yet the table stores symbol 0 there, because
the unconditional primary store of the shorter code overwrote it. -/
theorem claim_C3_counterexample :
    ((buildHuffmanCodes [1, 1, 2]).map fun pm => pm.2) = some 2 ∧
    ((buildHuffmanCodes [1, 1, 2]).map fun pm => pm.1 0) = some (0 ||| 0x8000) ∧
    [1, 1, 2].getD 2 0 = 2 ∧
    0 % 2 ^ 2 = bitRev 2 (canonCode [1, 1, 2] 2 2) ∧
    (0 ||| 0x8000 : Nat) ≠ 2 ||| 0x8000 := by
  refine ⟨by decide, by decide, by decide, by decide, by decide⟩

/-- Witness for C3 (amended) at the array `[1, 2, 2]` (Kraft sum exactly 1),
symbol 1, table index 1. -/
theorem claim_C3_witness :
    ((buildHuffmanCodes [1, 2, 2]).map fun pm => pm.1 1) =
      some (1 ||| 0x8000) := by
  cases hb : buildHuffmanCodes [1, 2, 2] with
  | none =>
      have : (buildHuffmanCodes [1, 2, 2]).isSome := by decide
      rw [hb] at this
      exact absurd this (by simp)
  | some pm =>
      obtain ⟨t, mb⟩ := pm
      have hmb : mb = 2 := by
        have h2 : ((buildHuffmanCodes [1, 2, 2]).map fun pm => pm.2) =
            some 2 := by decide
        rw [hb] at h2
        simpa using h2
      have h := claim_C3_forward_table [1, 2, 2] t mb (by decide) (by decide)
        (by norm_num [kraft, List.filter_cons, List.sum_cons]) hb 1 (by decide)
        (by decide) 1 (by rw [hmb]; decide) (by decide)
      simp only [Option.map_some']
      rw [h.1]

theorem insertionSort_codesSpec (lens : List Nat) :
    List.insertionSort (fun a b : CodeIndexPair => a.index ≤ b.index)
      (codesSpec lens) = codesSpec lens := by
  haveI htot : IsTotal CodeIndexPair (fun a b => a.index ≤ b.index) :=
    ⟨fun a b => Nat.le_total a.index b.index⟩
  haveI htr : IsTrans CodeIndexPair (fun a b => a.index ≤ b.index) :=
    ⟨fun a b c h1 h2 => Nat.le_trans h1 h2⟩
  haveI hanti : IsAntisymm CodeIndexPair
      (fun a b : CodeIndexPair => a.index < b.index) :=
    ⟨fun a b h1 h2 => absurd h2 (by omega)⟩
  have hperm : (List.insertionSort
      (fun a b : CodeIndexPair => a.index ≤ b.index)
      (codesSpec lens)).Perm (codesSpec lens) := List.perm_insertionSort _ _
  have hsorted_le : List.Sorted (fun a b : CodeIndexPair => a.index ≤ b.index)
      (List.insertionSort (fun a b : CodeIndexPair => a.index ≤ b.index)
        (codesSpec lens)) := List.sorted_insertionSort _ _
  have hspec_lt : List.Pairwise (fun a b : CodeIndexPair => a.index < b.index)
      (codesSpec lens) := codesSpec_pairwise_index lens
  have hne : List.Pairwise (fun a b : CodeIndexPair => a.index ≠ b.index)
      (List.insertionSort (fun a b : CodeIndexPair => a.index ≤ b.index)
        (codesSpec lens)) := by
    apply (hspec_lt.imp (fun h => ?_)).perm hperm.symm (fun h => ?_)
    · omega
    · omega
  have hsorted_lt : List.Sorted (fun a b : CodeIndexPair => a.index < b.index)
      (List.insertionSort (fun a b : CodeIndexPair => a.index ≤ b.index)
        (codesSpec lens)) := by
    have hand := hsorted_le.and hne
    exact hand.imp (fun h => by omega)
  exact List.eq_of_perm_of_sorted hperm hsorted_lt hspec_lt

theorem fillRev_spec : ∀ (n k : Nat) (ps : List CodeIndexPair),
    List.Pairwise (fun p q : CodeIndexPair => p.index < q.index) ps →
    (∀ p ∈ ps, k ≤ p.index) →
    ∀ j, j < n →
    (∃ p ∈ ps, p.index = k + j ∧ (fillRev k n ps).getD j 0 = p.code) ∨
    ((∀ p ∈ ps, p.index ≠ k + j) ∧ (fillRev k n ps).getD j 0 = 0) := by
  intro n
  induction n with
  | zero => intro k ps _ _ j hj; omega
  | succ n ih =>
      intro k ps hsort hge j hj
      cases ps with
      | nil =>
          right
          refine ⟨by simp, ?_⟩
          cases j with
          | zero => rfl
          | succ j2 =>
              rcases ih (k + 1) [] (by simp) (by simp) j2 (by omega) with h | h
              · obtain ⟨p, hp, -⟩ := h
                exact absurd hp (List.not_mem_nil p)
              · exact h.2
      | cons p ps2 =>
          have hsort2 := (List.pairwise_cons.mp hsort).2
          have hheadlt := (List.pairwise_cons.mp hsort).1
          by_cases hpk : p.index = k
          · cases j with
            | zero =>
                left
                refine ⟨p, List.mem_cons_self p ps2, by omega, ?_⟩
                simp only [fillRev, if_pos hpk]
                rfl
            | succ j2 =>
                have hge2 : ∀ q ∈ ps2, k + 1 ≤ q.index := by
                  intro q hq
                  have := hheadlt q hq
                  omega
                rcases ih (k + 1) ps2 hsort2 hge2 j2 (by omega) with h | h
                · obtain ⟨q, hq, hqi, hqv⟩ := h
                  left
                  refine ⟨q, List.mem_cons_of_mem p hq, by omega, ?_⟩
                  simp only [fillRev, if_pos hpk]
                  simpa using hqv
                · right
                  refine ⟨?_, ?_⟩
                  · intro q hq
                    rcases List.mem_cons.mp hq with hq1 | hq2
                    · subst hq1
                      omega
                    · have := h.1 q hq2
                      omega
                  · simp only [fillRev, if_pos hpk]
                    simpa using h.2
          · have hpgt : k + 1 ≤ p.index := by
              have := hge p (List.mem_cons_self p ps2)
              omega
            have hge2 : ∀ q ∈ p :: ps2, k + 1 ≤ q.index := by
              intro q hq
              rcases List.mem_cons.mp hq with hq1 | hq2
              · subst hq1
                exact hpgt
              · have := hheadlt q hq2
                omega
            cases j with
            | zero =>
                right
                refine ⟨?_, ?_⟩
                · intro q hq
                  have := hge2 q hq
                  omega
                · simp only [fillRev, if_neg hpk]
                  rfl
            | succ j2 =>
                rcases ih (k + 1) (p :: ps2) hsort hge2 j2 (by omega) with h | h
                · obtain ⟨q, hq, hqi, hqv⟩ := h
                  left
                  refine ⟨q, hq, by omega, ?_⟩
                  simp only [fillRev, if_neg hpk]
                  simpa using hqv
                · right
                  refine ⟨fun q hq => by have := h.1 q hq; omega, ?_⟩
                  simp only [fillRev, if_neg hpk]
                  simpa using h.2

theorem buildHuffmanReverseCodes_some_inv (lens : List Nat) (rc : List Nat)
    (mb : Nat) (h : buildHuffmanReverseCodes lens = some (rc, mb)) :
    oversubscribed lens = false ∧ mb = maxBitsOf lens ∧
    rc = fillRev 0 lens.length (codesSpec lens) := by
  rw [buildHuffmanReverseCodes] at h
  cases hinit : initHuffmanCodes lens with
  | none =>
      rw [hinit] at h
      exact absurd h (by simp)
  | some pm =>
      obtain ⟨pairs, mb2⟩ := pm
      obtain ⟨hov, hcs, hmb⟩ := initHuffmanCodes_some_inv lens pairs mb2 hinit
      rw [hinit] at h
      simp only [Option.map_some'] at h
      have h1 := congrArg Prod.fst (Option.some.inj h)
      have h2 := congrArg Prod.snd (Option.some.inj h)
      simp only at h1 h2
      subst hcs
      subst hmb
      rw [insertionSort_codesSpec lens] at h1
      exact ⟨hov, h2.symm, h1.symm⟩

/-- The reverse table holds, per symbol, the bit-reversed canonical code (or
0 for an absent symbol). -/
theorem rcodes_getD (lens : List Nat) (rc : List Nat) (mb : Nat)
    (hb : buildHuffmanReverseCodes lens = some (rc, mb))
    (s : Nat) (hs : s < lens.length) :
    rc.getD s 0 = if lens.getD s 0 = 0 then 0
      else bitRev (lens.getD s 0) (canonCode lens s (lens.getD s 0)) := by
  obtain ⟨-, -, hrc⟩ := buildHuffmanReverseCodes_some_inv lens rc mb hb
  have hspec := fillRev_spec lens.length 0 (codesSpec lens)
    (codesSpec_pairwise_index lens) (by simp) s hs
  by_cases hz : lens.getD s 0 = 0
  · rw [if_pos hz, hrc]
    rcases hspec with h | h
    · obtain ⟨p, hp, hpi, -⟩ := h
      have := (codesSpec_mem_wf lens p hp).2.1
      rw [hpi] at this
      simp only [Nat.zero_add] at this
      exact absurd hz this
    · exact h.2
  · rw [if_neg hz, hrc]
    rcases hspec with h | h
    · obtain ⟨p, hp, hpi, hpv⟩ := h
      obtain ⟨-, -, hpcode, -⟩ := codesSpec_mem_wf lens p hp
      rw [hpv, hpcode, hpi]
      simp only [Nat.zero_add]
    · have hmem := codesSpec_mem_of lens s hs hz
      have := h.1 _ hmem
      simp at this

/-- Joint success: the forward and reverse builders accept exactly the same
code-length arrays (both gate on `InitHuffmanCodes`). -/
theorem reverse_some_of_codes_some (lens : List Nat) (t : Nat → Nat) (mb : Nat)
    (hb : buildHuffmanCodes lens = some (t, mb)) :
    ∃ rc, buildHuffmanReverseCodes lens = some (rc, mb) := by
  rw [buildHuffmanCodes] at hb
  cases hinit : initHuffmanCodes lens with
  | none =>
      rw [hinit] at hb
      exact absurd hb (by simp)
  | some pm =>
      rw [hinit] at hb
      simp only [Option.map_some'] at hb
      have h2 := congrArg Prod.snd (Option.some.inj hb)
      simp only at h2
      refine ⟨fillRev 0 lens.length
        (List.insertionSort (fun a b => a.index ≤ b.index) pm.1), ?_⟩
      rw [buildHuffmanReverseCodes, hinit]
      simp only [Option.map_some']
      rw [h2]

/-- Consistency of the two tables: a valid forward entry at index `i` names a
symbol `s` whose reverse code is exactly the low `lens[s]` bits of `i`.  This
needs no Kraft hypothesis. -/
theorem table_consistency (lens : List Nat) (t : Nat → Nat) (mb : Nat)
    (rc : List Nat) (mb2 : Nat)
    (hb : buildHuffmanCodes lens = some (t, mb))
    (hr : buildHuffmanReverseCodes lens = some (rc, mb2))
    (hlen : lens.length ≤ 2 ^ 15) (i : Nat)
    (hvalid : t i &&& 0x8000 ≠ 0) :
    ∃ s, s < lens.length ∧ t i &&& 0x7FFF = s ∧ lens.getD s 0 ≠ 0 ∧
      i % 2 ^ (lens.getD s 0) = rc.getD s 0 := by
  rcases hcodes_sound lens t mb hb i with h | h
  · rw [h] at hvalid
    exact absurd (Nat.zero_and 32768) hvalid
  · obtain ⟨s, hs, hne, hval, hm⟩ := h
    have hs15 : s < 2 ^ 15 := lt_of_lt_of_le hs hlen
    refine ⟨s, hs, ?_, hne, ?_⟩
    · rw [hval, flag_and_mask s hs15]
    · rw [rcodes_getD lens rc mb2 hr s hs, if_neg hne]
      exact hm

/-- C6: in both directions of `BuildHuffmanCodeLengths`, a copy-previous
marker (meta code 16; puff byte 16..19) as the very first element
(`idx == 0`) fails with `InvalidInput`: the reader direction after the meta
table decodes code 16, the writer direction after reading a puff byte in
16..19. -/
theorem claim_C6_code16_first_rejected
    (cl : List Nat) (hc : Nat → Nat) (mb numCodes fuel cap : Nat) (s : Bits)
    (nbits : Nat) (rc : List Nat) (buf : List Nat) (b avail : Nat)
    (hnc : 0 < numCodes) (hsl : mb ≤ s.length)
    (hca : codeAlphabet cl hc (readBits mb s) = some (16, nbits))
    (hb16 : 16 ≤ b) (hb19 : b ≤ 19) (hcl : 16 < cl.length) :
    bhclDec cl hc mb numCodes (fuel + 1) 0 [] (cap + 1) s =
      .error .invalidInput ∧
    bhclEnc cl rc numCodes (fuel + 1) 0 [] (b :: buf) (avail + 1) =
      .error .invalidInput := by
  constructor
  · simp [bhclDec, hnc, hsl, hca]
  · have h155 : b ≤ 155 := by omega
    have hn16 : ¬b < 16 := by omega
    have h20 : b < 20 := by omega
    simp [bhclEnc, codeHuffman, hnc, h155, hn16, h20, hcl]

/-- Witness for C6: meta alphabet with code lengths 1 for symbols 5 and 16,
a bit stream whose first bit selects symbol 16, and a puff byte 16 first. -/
theorem claim_C6_witness :
    bhclDec [0, 0, 0, 0, 0, 1, 0, 0, 0, 0, 0, 0, 0, 0, 0, 0, 1, 0, 0]
      (fun i => if i % 2 = 0 then 5 ||| 0x8000 else 16 ||| 0x8000) 1 3
      3 0 [] 3 [true, false] = .error .invalidInput ∧
    bhclEnc [0, 0, 0, 0, 0, 1, 0, 0, 0, 0, 0, 0, 0, 0, 0, 0, 1, 0, 0]
      (List.replicate 19 0) 3 3 0 [] [16, 0] 2 = .error .invalidInput := by
  have h := claim_C6_code16_first_rejected
    [0, 0, 0, 0, 0, 1, 0, 0, 0, 0, 0, 0, 0, 0, 0, 0, 1, 0, 0]
    (fun i => if i % 2 = 0 then 5 ||| 0x8000 else 16 ||| 0x8000) 1 3 2 2
    [true, false] 1 (List.replicate 19 0) [0] 16 1
    (by decide) (by decide) (by decide) (by decide) (by decide) (by decide)
  exact h

/-- C7: in the puff-to-bits direction of `BuildHuffmanCodeLengths`, a puff
byte greater than 155 reached by the loop fails with `InvalidInput` before
any expansion (the check at line 515 precedes the decoding/writing of that
byte), for any loop state. -/
theorem claim_C7_puff_over155_rejected
    (cl rc : List Nat) (numCodes fuel idx : Nat) (lensAcc : List Nat)
    (b : Nat) (buf : List Nat) (avail : Nat)
    (hidx : idx < numCodes) (hb : 155 < b) :
    bhclEnc cl rc numCodes (fuel + 1) idx lensAcc (b :: buf) (avail + 1) =
      .error .invalidInput := by
  have h155 : ¬b ≤ 155 := by omega
  simp [bhclEnc, hidx, h155]

/-- Witness for C7 at byte 156 in the first slot. -/
theorem claim_C7_witness :
    bhclEnc [0] [0] 1 1 0 [] [156] 1 = .error .invalidInput :=
  claim_C7_puff_over155_rejected [0] [0] 1 0 0 [] 156 [] 0
    (by decide) (by decide)

/-- C9: neither direction of `BuildHuffmanCodeLengths` checks that a repeat
run fits in the declared alphabet: with `num_codes = 3`, the puff sequence
`[5, 16]` (value 5, then copy-previous three times) drives `idx` to 4 > 3,
yet both directions return success and the produced `lens` array has 4 > 3
entries.  The tables are the ones really built from `metaLens9` by
`BuildHuffmanCodes` / `BuildHuffmanReverseCodes`. -/
theorem claim_C9_repeat_overrun :
    (match buildHuffmanCodes metaLens9 with
      | some pm => bhclDec metaLens9 pm.1 pm.2 3 3 0 [] 3
          [false, true, false, false]
      | none => .error .invalidInput) =
      .ok ([5, 16], [5, 5, 5, 5], []) ∧
    (match buildHuffmanReverseCodes metaLens9 with
      | some pm => bhclEnc metaLens9 pm.1 3 3 0 [] [5, 16] 2
      | none => .error .invalidInput) =
      .ok (2, [5, 5, 5, 5], [false, true, false, false]) ∧
    3 < [5, 5, 5, 5].length := by
  refine ⟨by decide, by decide, by decide⟩

/-- C10: the puff-to-bits `BuildDynamicHuffmanTable` requires the supplied
puff header buffer to be consumed exactly: if the header, meta nibbles and
both code-length sequences parse successfully but consume `index < length`
bytes, the final check `length == index` fails with `InvalidInput`. -/
theorem claim_C10_trailing_bytes_rejected (buffer : List Nat)
    (length index : Nat)
    (h : consumedOf (buildDynHTEncCore buffer length) = some index)
    (hlt : index < length) :
    buildDynamicHuffmanTableEnc buffer length = .error .invalidInput := by
  rw [buildDynamicHuffmanTableEnc]
  cases hc : buildDynHTEncCore buffer length with
  | error e =>
      rw [hc] at h
      exact absurd h (by simp [consumedOf])
  | ok r =>
      rw [hc] at h
      simp only [consumedOf] at h
      have hr1 : r.1 = index := Option.some.inj h
      change (if length = r.1 then Except.ok r.2 else
        Except.error PErr.invalidInput) = _
      rw [if_neg (by omega)]

set_option maxRecDepth 40000 in
/-- Witness for C10: a well-formed 8-byte puff dynamic header followed by one
trailing byte. -/
theorem claim_C10_witness :
    consumedOf (buildDynHTEncCore [0, 0, 0, 0, 17, 155, 136, 0, 99] 9) =
      some 8 ∧ 8 < 9 ∧
    buildDynamicHuffmanTableEnc [0, 0, 0, 0, 17, 155, 136, 0, 99] 9 =
      .error .invalidInput :=
  ⟨by decide, by decide,
    claim_C10_trailing_bytes_rejected [0, 0, 0, 0, 17, 155, 136, 0, 99] 9 8
      (by decide) (by decide)⟩

/-! ## Round-trip of the code-length sequence loops -/

theorem readBits_lt (n : Nat) (s : Bits) : readBits n s < 2 ^ n := by
  have h1 : bitsVal (s.take n) < 2 ^ (s.take n).length := bitsVal_lt _
  have h2 : (s.take n).length ≤ n := by
    rw [List.length_take]
    omega
  exact lt_of_lt_of_le h1 (Nat.pow_le_pow_right (by norm_num) h2)

theorem natBits_readBits (n : Nat) (s : Bits) (h : n ≤ s.length) :
    natBits n (readBits n s) = s.take n := by
  have hlen : (s.take n).length = n := by
    rw [List.length_take]
    omega
  have h2 := natBits_bitsVal (s.take n)
  rw [hlen] at h2
  exact h2

theorem take_append_dropBits (n : Nat) (s : Bits) :
    s.take n ++ dropBits n s = s := List.take_append_drop n s

theorem prependByte_ok (b : Nat) (r : Except PErr (List Nat × List Nat × Bits))
    (bytes lensOut : List Nat) (rest : Bits)
    (h : prependByte b r = .ok (bytes, lensOut, rest)) :
    ∃ bytes2, r = .ok (bytes2, lensOut, rest) ∧ bytes = b :: bytes2 := by
  cases r with
  | error e => exact absurd h (by simp [prependByte])
  | ok tr =>
      obtain ⟨b2, l2, r2⟩ := tr
      simp only [prependByte] at h
      have h2 := Except.ok.inj h
      refine ⟨b2, ?_, ?_⟩
      · have e1 : l2 = lensOut := congrArg (fun x => x.2.1) h2
        have e2 : r2 = rest := congrArg (fun x => x.2.2) h2
        rw [e1, e2]
      · exact (congrArg (fun x => x.1) h2).symm

/-- What a successful meta-table lookup guarantees: the decoded symbol is a
real, nonzero-length symbol, the number of bits to drop is its length, the
reverse table holds exactly the consumed bits, and re-emitting that reverse
code over that length reproduces the consumed bits. -/
theorem decode_step (cl : List Nat) (hc : Nat → Nat) (mb : Nat)
    (rc : List Nat) (mbr : Nat)
    (hb : buildHuffmanCodes cl = some (hc, mb))
    (hr : buildHuffmanReverseCodes cl = some (rc, mbr))
    (hlen : cl.length ≤ 2 ^ 15) (h15 : ∀ l ∈ cl, l ≤ kMaxHuffmanBits)
    (s : Bits) (hsl : mb ≤ s.length) (code nbits : Nat)
    (hca : codeAlphabet cl hc (readBits mb s) = some (code, nbits)) :
    code < cl.length ∧ nbits = cl.getD code 0 ∧ cl.getD code 0 ≠ 0 ∧
    nbits ≤ mb ∧
    codeHuffman cl rc code = some (rc.getD code 0, nbits) ∧
    natBits nbits (rc.getD code 0) = s.take nbits := by
  rw [codeAlphabet] at hca
  by_cases hval : hc (readBits mb s) &&& 0x8000 ≠ 0
  · rw [if_pos hval] at hca
    have hpair := Option.some.inj hca
    have hcode : hc (readBits mb s) &&& 0x7FFF = code :=
      congrArg Prod.fst hpair
    have hnbits : cl.getD code 0 = nbits := by
      have h2 := congrArg Prod.snd hpair
      simpa [hcode] using h2
    obtain ⟨s0, hs0lt, hs0eq, hs0ne, hs0mod⟩ :=
      table_consistency cl hc mb rc mbr hb hr hlen (readBits mb s) hval
    have hs0code : s0 = code := by rw [← hs0eq, hcode]
    rw [hs0code] at hs0lt hs0ne hs0mod
    have hmbof : mb = maxBitsOf cl :=
      (buildHuffmanCodes_some_inv cl hc mb hb).2.1
    have hnmb : cl.getD code 0 ≤ mb := by
      rw [hmbof]
      apply mem_le_maxBitsOf cl h15
      · rw [getD_eq_getElem cl code hs0lt]
        exact List.getElem_mem _
      · exact hs0ne
    have hch : codeHuffman cl rc code = some (rc.getD code 0, nbits) := by
      rw [codeHuffman, if_pos hs0lt, hnbits]
    have hrcval : rc.getD code 0 = readBits nbits s := by
      rw [← hs0mod, ← hnbits, readBits, readBits, bitsVal_take, bitsVal_take,
        Nat.mod_mod_of_dvd _ (pow_dvd_pow 2 (hnbits ▸ hnmb))]
    refine ⟨hs0lt, hnbits.symm, hs0ne, hnbits ▸ hnmb, hch, ?_⟩
    rw [hrcval, natBits_readBits nbits s (le_trans (hnbits ▸ hnmb) hsl)]
  · rw [if_neg hval] at hca
    exact absurd hca (by simp)

/-- Round trip of the code-length sequence loops: whatever the bits-to-puff
loop emits, the puff-to-bits loop (run on those bytes, possibly followed by
further buffer content) consumes exactly those bytes, rebuilds the same
`lens` array, and re-emits exactly the consumed bits. -/
theorem bhcl_roundtrip (cl : List Nat) (hc : Nat → Nat) (mb : Nat)
    (rc : List Nat) (mbr : Nat)
    (hb : buildHuffmanCodes cl = some (hc, mb))
    (hr : buildHuffmanReverseCodes cl = some (rc, mbr))
    (hlen : cl.length ≤ 2 ^ 15) (h15 : ∀ l ∈ cl, l ≤ kMaxHuffmanBits)
    (numCodes : Nat) :
    ∀ (fuel idx : Nat) (lensAcc : List Nat) (capLeft : Nat) (s : Bits)
      (bytes lensOut : List Nat) (rest : Bits),
      bhclDec cl hc mb numCodes fuel idx lensAcc capLeft s =
        .ok (bytes, lensOut, rest) →
      ∀ (extra : List Nat) (avail : Nat), bytes.length ≤ avail →
      ∃ w, bhclEnc cl rc numCodes fuel idx lensAcc (bytes ++ extra) avail =
        .ok (bytes.length, lensOut, w) ∧ w ++ rest = s := by
  intro fuel
  induction fuel with
  | zero =>
      intro idx lensAcc capLeft s bytes lensOut rest h extra avail _
      simp only [bhclDec] at h
      by_cases hidx : idx < numCodes
      · rw [if_pos hidx] at h
        exact absurd h (by simp)
      · rw [if_neg hidx] at h
        have h2 := Except.ok.inj h
        have hbytes : bytes = [] := (congrArg (fun x => x.1) h2).symm
        have hlens : lensOut = lensAcc := (congrArg (fun x => x.2.1) h2).symm
        have hrest : rest = s := (congrArg (fun x => x.2.2) h2).symm
        refine ⟨[], ?_, by rw [hrest]; rfl⟩
        simp only [bhclEnc, if_neg hidx, hbytes, hlens]
        rfl
  | succ fuel ih =>
      intro idx lensAcc capLeft s bytes lensOut rest h extra avail havail
      by_cases hidx : idx < numCodes
      case neg =>
        simp only [bhclDec, if_neg hidx] at h
        have h2 := Except.ok.inj h
        have hbytes : bytes = [] := (congrArg (fun x => x.1) h2).symm
        have hlens : lensOut = lensAcc := (congrArg (fun x => x.2.1) h2).symm
        have hrest : rest = s := (congrArg (fun x => x.2.2) h2).symm
        refine ⟨[], ?_, by rw [hrest]; rfl⟩
        simp only [bhclEnc, if_neg hidx, hbytes, hlens]
        rfl
      case pos =>
      simp only [bhclDec, if_pos hidx] at h
      by_cases hsl : mb ≤ s.length
      case neg =>
        rw [if_neg hsl] at h
        exact absurd h (by simp)
      rw [if_pos hsl] at h
      cases hca : codeAlphabet cl hc (readBits mb s) with
      | none =>
          rw [hca] at h
          exact absurd h (by simp)
      | some cn =>
      obtain ⟨code, nbits⟩ := cn
      rw [hca] at h
      dsimp only at h
      by_cases hcap : capLeft = 0
      case pos =>
        rw [if_pos hcap] at h
        exact absurd h (by simp)
      rw [if_neg hcap] at h
      obtain ⟨hclt, hnb, hne0, hnmb, hch, hnb_take⟩ :=
        decode_step cl hc mb rc mbr hb hr hlen h15 s hsl code nbits hca
      by_cases h16 : code < 16
      · -- literal length value 0..15
        rw [if_pos h16] at h
        obtain ⟨bytes2, hrec, hbytes⟩ := prependByte_ok _ _ _ _ _ h
        subst hbytes
        have havail0 : ¬avail = 0 := by
          simp only [List.length_cons] at havail
          omega
        obtain ⟨w2, henc2, hw2⟩ := ih (idx + 1) (lensAcc ++ [code])
          (capLeft - 1) (dropBits nbits s) bytes2 lensOut rest hrec extra
          (avail - 1) (by simp only [List.length_cons] at havail; omega)
        refine ⟨s.take nbits ++ w2, ?_, ?_⟩
        · have h155 : code ≤ 155 := by omega
          simp only [bhclEnc, List.cons_append, List.headD_cons,
            List.tail_cons, if_pos hidx, if_neg havail0, if_pos h155,
            if_pos h16, hch]
          rw [henc2]
          simp only [prependEnc, List.length_cons, hnb_take]
          rw [Nat.add_comm 1 bytes2.length]
        · rw [List.append_assoc, hw2, take_append_dropBits]
      · rw [if_neg h16] at h
        by_cases h19 : code < 19
        case neg =>
          rw [if_neg h19] at h
          exact absurd h (by simp)
        rw [if_pos h19] at h
        by_cases hc16 : code = 16
        · -- copy previous, 2 extra bits, bytes 16..19
          subst hc16
          rw [if_pos rfl] at h
          by_cases hidx0 : idx = 0
          case pos =>
            rw [if_pos hidx0] at h
            exact absurd h (by simp)
          rw [if_neg hidx0] at h
          by_cases hs2 : 2 ≤ (dropBits nbits s).length
          case neg =>
            rw [if_neg hs2] at h
            exact absurd h (by simp)
          rw [if_pos hs2] at h
          obtain ⟨bytes2, hrec, hbytes⟩ := prependByte_ok _ _ _ _ _ h
          subst hbytes
          have havail0 : ¬avail = 0 := by
            simp only [List.length_cons] at havail
            omega
          obtain ⟨w2, henc2, hw2⟩ := ih
            (idx + (3 + readBits 2 (dropBits nbits s)))
            (lensAcc ++ List.replicate (3 + readBits 2 (dropBits nbits s))
              (lensAcc.getD (idx - 1) 0))
            (capLeft - 1) (dropBits 2 (dropBits nbits s)) bytes2 lensOut rest
            hrec extra (avail - 1)
            (by simp only [List.length_cons] at havail; omega)
          have he2 : readBits 2 (dropBits nbits s) < 4 := by
            simpa using readBits_lt 2 (dropBits nbits s)
          have hbn16 : ¬(16 + readBits 2 (dropBits nbits s) < 16) := by omega
          have hb20 : 16 + readBits 2 (dropBits nbits s) < 20 := by omega
          have hb155 : 16 + readBits 2 (dropBits nbits s) ≤ 155 := by omega
          have hsub : 16 + readBits 2 (dropBits nbits s) - 16 =
            readBits 2 (dropBits nbits s) := by omega
          refine ⟨s.take nbits ++ (dropBits nbits s).take 2 ++ w2, ?_, ?_⟩
          · simp only [bhclEnc, List.cons_append, List.headD_cons,
              List.tail_cons, if_pos hidx, if_neg havail0, if_pos hb155,
              if_neg hbn16, if_pos hb20, hch, hsub,
              if_neg (show ¬(16 : Nat) < 16 by decide),
              if_pos (show (16 : Nat) = 16 from rfl), if_neg hidx0]
            rw [henc2]
            simp only [prependEnc, List.length_cons, hnb_take,
              natBits_readBits 2 (dropBits nbits s) hs2]
            rw [Nat.add_comm 1 bytes2.length, List.append_assoc]
            exact if_pos trivial
          · rw [List.append_assoc, List.append_assoc, hw2,
              take_append_dropBits, take_append_dropBits]
        · rw [if_neg hc16] at h
          by_cases hc17 : code = 17
          · -- run of zeros, 3 extra bits, bytes 20..27
            subst hc17
            rw [if_pos rfl] at h
            by_cases hs3 : 3 ≤ (dropBits nbits s).length
            case neg =>
              rw [if_neg hs3] at h
              exact absurd h (by simp)
            rw [if_pos hs3] at h
            obtain ⟨bytes2, hrec, hbytes⟩ := prependByte_ok _ _ _ _ _ h
            subst hbytes
            have havail0 : ¬avail = 0 := by
              simp only [List.length_cons] at havail
              omega
            obtain ⟨w2, henc2, hw2⟩ := ih
              (idx + (3 + readBits 3 (dropBits nbits s)))
              (lensAcc ++ List.replicate (3 + readBits 3 (dropBits nbits s)) 0)
              (capLeft - 1) (dropBits 3 (dropBits nbits s)) bytes2 lensOut rest
              hrec extra (avail - 1)
              (by simp only [List.length_cons] at havail; omega)
            have he3 : readBits 3 (dropBits nbits s) < 8 := by
              simpa using readBits_lt 3 (dropBits nbits s)
            have hbn16 : ¬(20 + readBits 3 (dropBits nbits s) < 16) := by omega
            have hbn20 : ¬(20 + readBits 3 (dropBits nbits s) < 20) := by omega
            have hb28 : 20 + readBits 3 (dropBits nbits s) < 28 := by omega
            have hb155 : 20 + readBits 3 (dropBits nbits s) ≤ 155 := by omega
            have hsub : 20 + readBits 3 (dropBits nbits s) - 20 =
              readBits 3 (dropBits nbits s) := by omega
            refine ⟨s.take nbits ++ (dropBits nbits s).take 3 ++ w2, ?_, ?_⟩
            · simp only [bhclEnc, List.cons_append, List.headD_cons,
                List.tail_cons, if_pos hidx, if_neg havail0, if_pos hb155,
                if_neg hbn16, if_neg hbn20, if_pos hb28, hch, hsub,
                if_neg (show ¬(17 : Nat) < 16 by decide),
                if_neg (show ¬(17 : Nat) = 16 by decide),
                if_pos (show (17 : Nat) = 17 from rfl)]
              rw [henc2]
              simp only [prependEnc, List.length_cons, hnb_take,
                natBits_readBits 3 (dropBits nbits s) hs3]
              rw [Nat.add_comm 1 bytes2.length, List.append_assoc]
              exact if_pos trivial
            · rw [List.append_assoc, List.append_assoc, hw2,
                take_append_dropBits, take_append_dropBits]
          · -- code 18: run of zeros, 7 extra bits, bytes 28..155
            rw [if_neg hc17] at h
            by_cases hs7 : 7 ≤ (dropBits nbits s).length
            case neg =>
              rw [if_neg hs7] at h
              exact absurd h (by simp)
            rw [if_pos hs7] at h
            obtain ⟨bytes2, hrec, hbytes⟩ := prependByte_ok _ _ _ _ _ h
            subst hbytes
            have havail0 : ¬avail = 0 := by
              simp only [List.length_cons] at havail
              omega
            obtain ⟨w2, henc2, hw2⟩ := ih
              (idx + (11 + readBits 7 (dropBits nbits s)))
              (lensAcc ++ List.replicate (11 + readBits 7 (dropBits nbits s)) 0)
              (capLeft - 1) (dropBits 7 (dropBits nbits s)) bytes2 lensOut rest
              hrec extra (avail - 1)
              (by simp only [List.length_cons] at havail; omega)
            have he7 : readBits 7 (dropBits nbits s) < 128 := by
              simpa using readBits_lt 7 (dropBits nbits s)
            have hbn16 : ¬(28 + readBits 7 (dropBits nbits s) < 16) := by omega
            have hbn20 : ¬(28 + readBits 7 (dropBits nbits s) < 20) := by omega
            have hbn28 : ¬(28 + readBits 7 (dropBits nbits s) < 28) := by omega
            have hb155 : 28 + readBits 7 (dropBits nbits s) ≤ 155 := by omega
            have hsub : 28 + readBits 7 (dropBits nbits s) - 28 =
              readBits 7 (dropBits nbits s) := by omega
            have hcode18 : code = 18 := by omega
            subst hcode18
            refine ⟨s.take nbits ++ (dropBits nbits s).take 7 ++ w2, ?_, ?_⟩
            · simp only [bhclEnc, List.cons_append, List.headD_cons,
                List.tail_cons, if_pos hidx, if_neg havail0, if_pos hb155,
                if_neg hbn16, if_neg hbn20, if_neg hbn28, hch, hsub,
                if_neg (show ¬(18 : Nat) < 16 by decide),
                if_neg (show ¬(18 : Nat) = 16 by decide),
                if_neg (show ¬(18 : Nat) = 17 by decide)]
              rw [henc2]
              simp only [prependEnc, List.length_cons, hnb_take,
                natBits_readBits 7 (dropBits nbits s) hs7]
              rw [Nat.add_comm 1 bytes2.length, List.append_assoc]
            · rw [List.append_assoc, List.append_assoc, hw2,
                take_append_dropBits, take_append_dropBits]

/-! ## Assembly of the dynamic-header round trip -/

theorem lt_sixteen_pow (w : Nat) (hw : w < 16) : w < 2 ^ 4 := by
  have h : (2 : Nat) ^ 4 = 16 := by norm_num
  omega

theorem packNibbles_length : ∀ vs : List Nat,
    (packNibbles vs).length = (vs.length + 1) / 2
  | [] => by
    show (0 : Nat) = (0 + 1) / 2
    decide
  | [_] => by
    show (1 : Nat) = (1 + 1) / 2
    decide
  | _ :: _ :: rest => by
    simp only [packNibbles, List.length_cons, packNibbles_length rest]
    omega

theorem nib_pack_hi (v w : Nat) (hw : w < 16) :
    ((v <<< 4) ||| w) >>> 4 = v := by
  rw [lor_mul_pow_add v w 4 (lt_sixteen_pow w hw), Nat.shiftRight_eq_div_pow]
  have h : (2 : Nat) ^ 4 = 16 := by norm_num
  rw [h]
  omega

theorem nib_pack_lo (v w : Nat) (hw : w < 16) :
    ((v <<< 4) ||| w) &&& 15 = w := by
  have h := Nat.and_pow_two_sub_one_eq_mod ((v <<< 4) ||| w) 4
  have h16 : (2 : Nat) ^ 4 = 16 := by norm_num
  rw [h16] at h
  rw [show (16 : Nat) - 1 = 15 from rfl] at h
  rw [h, lor_mul_pow_add v w 4 (lt_sixteen_pow w hw), h16]
  omega

theorem unpackNibbles_packNibbles : ∀ (vs : List Nat),
    (∀ v ∈ vs, v < 16) → ∀ t2 : List Nat,
    unpackNibbles vs.length (packNibbles vs ++ t2) = vs
  | [], _, _ => rfl
  | [v], _, t2 => by
    show unpackNibbles 1 ((v <<< 4) :: t2) = [v]
    simp only [unpackNibbles, List.headD_cons]
    rw [Nat.shiftLeft_eq, Nat.shiftRight_eq_div_pow]
    have h : (2 : Nat) ^ 4 = 16 := by norm_num
    rw [h]
    congr 1
    omega
  | v :: w :: rest, h, t2 => by
    have ih := unpackNibbles_packNibbles rest
      (fun x hx => h x (by simp [hx])) t2
    have hw : w < 16 := h w (by simp)
    show unpackNibbles (rest.length + 2)
      (((v <<< 4) ||| w) :: (packNibbles rest ++ t2)) = v :: w :: rest
    simp only [unpackNibbles, List.headD_cons, List.tail_cons]
    rw [nib_pack_hi v w hw, nib_pack_lo v w hw, ih]

theorem readMeta_spec : ∀ (n : Nat) (s : Bits) (vs : List Nat) (rest : Bits),
    readMeta n s = .ok (vs, rest) →
    vs.length = n ∧ (∀ v ∈ vs, v < 8) ∧
      (vs.map (natBits 3)).join ++ rest = s
  | 0, s, vs, rest, h => by
    simp only [readMeta] at h
    have h2 := Except.ok.inj h
    have hvs : vs = [] := (congrArg Prod.fst h2).symm
    have hrest : rest = s := (congrArg Prod.snd h2).symm
    subst hvs
    subst hrest
    exact ⟨rfl, by simp, by simp⟩
  | n + 1, s, vs, rest, h => by
    simp only [readMeta] at h
    by_cases hs3 : 3 ≤ s.length
    · rw [if_pos hs3] at h
      cases hrm : readMeta n (dropBits 3 s) with
      | error e =>
          rw [hrm] at h
          exact absurd h (by simp)
      | ok p =>
          obtain ⟨vs2, rest2⟩ := p
          rw [hrm] at h
          dsimp only at h
          have h2 := Except.ok.inj h
          have hvs : vs = readBits 3 s :: vs2 := (congrArg Prod.fst h2).symm
          have hrest : rest = rest2 := (congrArg Prod.snd h2).symm
          obtain ⟨ih1, ih2, ih3⟩ := readMeta_spec n (dropBits 3 s) vs2 rest2 hrm
          subst hvs
          subst hrest
          refine ⟨by simp [ih1], ?_, ?_⟩
          · intro v hv
            rcases List.mem_cons.mp hv with hv | hv
            · rw [hv]
              exact lt_of_lt_of_le (readBits_lt 3 s) (by norm_num)
            · exact ih2 v hv
          · simp only [List.map_cons, List.join_cons, List.append_assoc, ih3]
            rw [natBits_readBits 3 s hs3]
            exact take_append_dropBits 3 s
    · rw [if_neg hs3] at h
      exact absurd h (by simp)

theorem codeLensFromMeta_length (vs : List Nat) :
    (codeLensFromMeta vs).length = 19 := by
  simp [codeLensFromMeta]

theorem codeLensFromMeta_le (vs : List Nat) (h8 : ∀ v ∈ vs, v < 8) :
    ∀ l ∈ codeLensFromMeta vs, l ≤ kMaxHuffmanBits := by
  intro l hl
  simp only [codeLensFromMeta, List.mem_map] at hl
  obtain ⟨j, -, hval⟩ := hl
  rw [← hval]
  by_cases hk : kPermutations.indexOf j < vs.length
  · rw [List.getD_eq_getElem vs 0 hk]
    have hm : vs[kPermutations.indexOf j] ∈ vs := List.getElem_mem _
    have h8m := h8 _ hm
    rw [kMaxHuffmanBits]
    omega
  · rw [List.getD_eq_default vs 0 (by omega)]
    rw [kMaxHuffmanBits]
    omega

/-- C1: the bits-to-puff direction of `BuildDynamicHuffmanTable` is inverted
exactly by the puff-to-bits direction: running the encoder on the emitted
puff bytes (with `length` exactly their count) succeeds, reconstructs the
same literal/length and distance code-length arrays, and re-emits exactly
the header bits the decoder consumed. -/
theorem claim_C1_dynamic_header_roundtrip (s : Bits) (cap : Nat)
    (buf litLens distLens : List Nat) (rest : Bits)
    (h : buildDynamicHuffmanTableDec s cap =
      .ok (buf, litLens, distLens, rest)) :
    ∃ w, buildDynamicHuffmanTableEnc buf buf.length =
      .ok (w, litLens, distLens) ∧ w ++ rest = s := by
  rw [buildDynamicHuffmanTableDec] at h
  by_cases hcap : cap < 3
  · rw [if_pos hcap] at h
    exact absurd h (by simp)
  rw [if_neg hcap] at h
  by_cases hs14 : s.length < 14
  · rw [if_pos hs14] at h
    exact absurd h (by simp)
  rw [if_neg hs14] at h
  by_cases hch : checkHuffmanArrayLengths (readBits 5 s + 257)
      (readBits 5 (dropBits 5 s) + 1)
      (readBits 4 (dropBits 5 (dropBits 5 s)) + 4) = true
  case neg =>
    rw [if_neg hch] at h
    exact absurd h (by simp)
  rw [if_pos hch] at h
  by_cases hcap2 : cap - 3 <
      (readBits 4 (dropBits 5 (dropBits 5 s)) + 4 + 1) / 2
  · rw [if_pos hcap2] at h
    exact absurd h (by simp)
  rw [if_neg hcap2] at h
  cases hrm : readMeta (readBits 4 (dropBits 5 (dropBits 5 s)) + 4)
      (dropBits 4 (dropBits 5 (dropBits 5 s))) with
  | error e =>
      rw [hrm] at h
      exact absurd h (by simp)
  | ok p1 =>
  obtain ⟨vs, s4⟩ := p1
  rw [hrm] at h
  dsimp only at h
  cases hbc : buildHuffmanCodes (codeLensFromMeta vs) with
  | none =>
      rw [hbc] at h
      exact absurd h (by simp)
  | some pm =>
  obtain ⟨hc, cmb⟩ := pm
  rw [hbc] at h
  dsimp only at h
  cases hd1 : bhclDec (codeLensFromMeta vs) hc cmb (readBits 5 s + 257)
      (readBits 5 s + 257) 0 []
      (cap - (3 + (readBits 4 (dropBits 5 (dropBits 5 s)) + 4 + 1) / 2))
      s4 with
  | error e =>
      rw [hd1] at h
      exact absurd h (by simp)
  | ok p2 =>
  obtain ⟨litBytes, litLens0, s5⟩ := p2
  rw [hd1] at h
  dsimp only at h
  by_cases hlit : (buildHuffmanCodes litLens0).isSome = true
  case neg =>
    rw [if_neg hlit] at h
    exact absurd h (by simp)
  rw [if_pos hlit] at h
  cases hd2 : bhclDec (codeLensFromMeta vs) hc cmb
      (readBits 5 (dropBits 5 s) + 1) (readBits 5 (dropBits 5 s) + 1) 0 []
      (cap - (3 + (readBits 4 (dropBits 5 (dropBits 5 s)) + 4 + 1) / 2
        + litBytes.length)) s5 with
  | error e =>
      rw [hd2] at h
      exact absurd h (by simp)
  | ok p3 =>
  obtain ⟨distBytes, distLens0, s6⟩ := p3
  rw [hd2] at h
  dsimp only at h
  by_cases hdist : (buildHuffmanCodes distLens0).isSome = true
  case neg =>
    rw [if_neg hdist] at h
    exact absurd h (by simp)
  rw [if_pos hdist] at h
  have h2 := Except.ok.inj h
  have hbuf : buf = [readBits 5 s, readBits 5 (dropBits 5 s),
      readBits 4 (dropBits 5 (dropBits 5 s))] ++
      packNibbles vs ++ litBytes ++ distBytes :=
    (congrArg (fun x => x.1) h2).symm
  have hlitL : litLens = litLens0 := (congrArg (fun x => x.2.1) h2).symm
  have hdistL : distLens = distLens0 := (congrArg (fun x => x.2.2.1) h2).symm
  have hrest : rest = s6 := (congrArg (fun x => x.2.2.2) h2).symm
  subst hlitL
  subst hdistL
  subst hrest
  obtain ⟨hvslen, hvs8, hjoin⟩ := readMeta_spec _ _ _ _ hrm
  have hvs16 : ∀ v ∈ vs, v < 16 := fun v hv =>
    lt_trans (hvs8 v hv) (by norm_num)
  have hbufn : buf = readBits 5 s :: readBits 5 (dropBits 5 s) ::
      readBits 4 (dropBits 5 (dropBits 5 s)) ::
      (packNibbles vs ++ (litBytes ++ distBytes)) := by
    rw [hbuf]
    simp [List.append_assoc]
  rw [hbufn]
  have hnib : (packNibbles vs).length =
      (readBits 4 (dropBits 5 (dropBits 5 s)) + 4 + 1) / 2 := by
    rw [packNibbles_length, hvslen]
  have hBlen : (readBits 5 s :: readBits 5 (dropBits 5 s) ::
      readBits 4 (dropBits 5 (dropBits 5 s)) ::
      (packNibbles vs ++ (litBytes ++ distBytes))).length =
      3 + (packNibbles vs).length + litBytes.length + distBytes.length := by
    simp only [List.length_cons, List.length_append]
    omega
  obtain ⟨rcm, hrcm⟩ := reverse_some_of_codes_some _ hc cmb hbc
  have hclml : (codeLensFromMeta vs).length ≤ 2 ^ 15 := by
    rw [codeLensFromMeta_length]
    norm_num
  have hclm15 : ∀ l ∈ codeLensFromMeta vs, l ≤ kMaxHuffmanBits :=
    codeLensFromMeta_le vs hvs8
  obtain ⟨wl, hencl, hwl⟩ := bhcl_roundtrip (codeLensFromMeta vs) hc cmb
    rcm cmb hbc hrcm hclml hclm15 (readBits 5 s + 257) (readBits 5 s + 257)
    0 [] _ s4 litBytes litLens s5 hd1 distBytes
    (litBytes.length + distBytes.length) (Nat.le_add_right _ _)
  obtain ⟨wd, hencd, hwd⟩ := bhcl_roundtrip (codeLensFromMeta vs) hc cmb
    rcm cmb hbc hrcm hclml hclm15 (readBits 5 (dropBits 5 s) + 1)
    (readBits 5 (dropBits 5 s) + 1) 0 [] _ s5 distBytes distLens rest hd2 []
    distBytes.length (Nat.le_refl _)
  rw [List.append_nil] at hencd
  obtain ⟨pl, hpl⟩ := Option.isSome_iff_exists.mp hlit
  obtain ⟨rcl, hrcl⟩ :=
    reverse_some_of_codes_some litLens pl.1 pl.2 (by rw [hpl])
  have hrevlit : (buildHuffmanReverseCodes litLens).isSome = true := by
    rw [hrcl]
    rfl
  obtain ⟨pd, hpd⟩ := Option.isSome_iff_exists.mp hdist
  obtain ⟨rcd, hrcd⟩ :=
    reverse_some_of_codes_some distLens pd.1 pd.2 (by rw [hpd])
  have hrevdist : (buildHuffmanReverseCodes distLens).isSome = true := by
    rw [hrcd]
    rfl
  have hunpack : unpackNibbles (readBits 4 (dropBits 5 (dropBits 5 s)) + 4)
      (packNibbles vs ++ (litBytes ++ distBytes)) = vs := by
    have h3 := unpackNibbles_packNibbles vs hvs16 (litBytes ++ distBytes)
    rw [hvslen] at h3
    exact h3
  have hg0 : (readBits 5 s :: readBits 5 (dropBits 5 s) ::
      readBits 4 (dropBits 5 (dropBits 5 s)) ::
      (packNibbles vs ++ (litBytes ++ distBytes))).getD 0 0 =
      readBits 5 s := rfl
  have hg1 : (readBits 5 s :: readBits 5 (dropBits 5 s) ::
      readBits 4 (dropBits 5 (dropBits 5 s)) ::
      (packNibbles vs ++ (litBytes ++ distBytes))).getD 1 0 =
      readBits 5 (dropBits 5 s) := rfl
  have hg2 : (readBits 5 s :: readBits 5 (dropBits 5 s) ::
      readBits 4 (dropBits 5 (dropBits 5 s)) ::
      (packNibbles vs ++ (litBytes ++ distBytes))).getD 2 0 =
      readBits 4 (dropBits 5 (dropBits 5 s)) := rfl
  have hd3 : (readBits 5 s :: readBits 5 (dropBits 5 s) ::
      readBits 4 (dropBits 5 (dropBits 5 s)) ::
      (packNibbles vs ++ (litBytes ++ distBytes))).drop 3 =
      packNibbles vs ++ (litBytes ++ distBytes) := rfl
  have hL3 : ¬ ((readBits 5 s :: readBits 5 (dropBits 5 s) ::
      readBits 4 (dropBits 5 (dropBits 5 s)) ::
      (packNibbles vs ++ (litBytes ++ distBytes))).length < 3) := by
    omega
  have hcap2E : ¬ ((readBits 5 s :: readBits 5 (dropBits 5 s) ::
      readBits 4 (dropBits 5 (dropBits 5 s)) ::
      (packNibbles vs ++ (litBytes ++ distBytes))).length - 3 <
      (readBits 4 (dropBits 5 (dropBits 5 s)) + 4 + 1) / 2) := by
    omega
  have hdrop1 : (readBits 5 s :: readBits 5 (dropBits 5 s) ::
      readBits 4 (dropBits 5 (dropBits 5 s)) ::
      (packNibbles vs ++ (litBytes ++ distBytes))).drop
      (3 + (readBits 4 (dropBits 5 (dropBits 5 s)) + 4 + 1) / 2) =
      litBytes ++ distBytes := by
    rw [Nat.add_comm 3 ((readBits 4 (dropBits 5 (dropBits 5 s)) + 4 + 1) / 2)]
    show (packNibbles vs ++ (litBytes ++ distBytes)).drop
      ((readBits 4 (dropBits 5 (dropBits 5 s)) + 4 + 1) / 2) = _
    exact List.drop_left' hnib
  have hdrop2 : (readBits 5 s :: readBits 5 (dropBits 5 s) ::
      readBits 4 (dropBits 5 (dropBits 5 s)) ::
      (packNibbles vs ++ (litBytes ++ distBytes))).drop
      (3 + (readBits 4 (dropBits 5 (dropBits 5 s)) + 4 + 1) / 2 +
        litBytes.length) = distBytes := by
    rw [show 3 + (readBits 4 (dropBits 5 (dropBits 5 s)) + 4 + 1) / 2 +
        litBytes.length =
      ((readBits 4 (dropBits 5 (dropBits 5 s)) + 4 + 1) / 2 +
        litBytes.length) + 3 from by omega]
    show (packNibbles vs ++ (litBytes ++ distBytes)).drop
      ((readBits 4 (dropBits 5 (dropBits 5 s)) + 4 + 1) / 2 +
        litBytes.length) = distBytes
    rw [← List.drop_drop, List.drop_left' hnib]
    exact List.drop_left litBytes distBytes
  have hA1 : (readBits 5 s :: readBits 5 (dropBits 5 s) ::
      readBits 4 (dropBits 5 (dropBits 5 s)) ::
      (packNibbles vs ++ (litBytes ++ distBytes))).length -
      (3 + (readBits 4 (dropBits 5 (dropBits 5 s)) + 4 + 1) / 2) =
      litBytes.length + distBytes.length := by
    omega
  have hA2 : (readBits 5 s :: readBits 5 (dropBits 5 s) ::
      readBits 4 (dropBits 5 (dropBits 5 s)) ::
      (packNibbles vs ++ (litBytes ++ distBytes))).length -
      (3 + (readBits 4 (dropBits 5 (dropBits 5 s)) + 4 + 1) / 2 +
        litBytes.length) = distBytes.length := by
    omega
  refine ⟨natBits 5 (readBits 5 s) ++ natBits 5 (readBits 5 (dropBits 5 s)) ++
    natBits 4 (readBits 4 (dropBits 5 (dropBits 5 s))) ++
    (vs.map (natBits 3)).join ++ wl ++ wd, ?_, ?_⟩
  · have hcore : buildDynHTEncCore (readBits 5 s ::
        readBits 5 (dropBits 5 s) ::
        readBits 4 (dropBits 5 (dropBits 5 s)) ::
        (packNibbles vs ++ (litBytes ++ distBytes)))
        (readBits 5 s :: readBits 5 (dropBits 5 s) ::
        readBits 4 (dropBits 5 (dropBits 5 s)) ::
        (packNibbles vs ++ (litBytes ++ distBytes))).length =
        .ok (3 + (readBits 4 (dropBits 5 (dropBits 5 s)) + 4 + 1) / 2 +
          litBytes.length + distBytes.length,
          natBits 5 (readBits 5 s) ++ natBits 5 (readBits 5 (dropBits 5 s)) ++
          natBits 4 (readBits 4 (dropBits 5 (dropBits 5 s))) ++
          (vs.map (natBits 3)).join ++ wl ++ wd,
          litLens, distLens) := by
      rw [buildDynHTEncCore]
      rw [if_neg hL3, hg0, hg1, hg2, if_pos hch, if_neg hcap2E, hd3, hunpack,
        hrcm]
      dsimp only
      rw [hdrop1, hA1, hencl]
      dsimp only
      rw [if_pos hrevlit, hdrop2, hA2, hencd]
      dsimp only
      rw [if_pos hrevdist]
    rw [buildDynamicHuffmanTableEnc, hcore]
    dsimp only
    rw [if_pos (show (readBits 5 s :: readBits 5 (dropBits 5 s) ::
      readBits 4 (dropBits 5 (dropBits 5 s)) ::
      (packNibbles vs ++ (litBytes ++ distBytes))).length =
      3 + (readBits 4 (dropBits 5 (dropBits 5 s)) + 4 + 1) / 2 +
        litBytes.length + distBytes.length from by omega)]
  · have h4len : 4 ≤ (dropBits 5 (dropBits 5 s)).length := by
      simp only [dropBits, List.length_drop]
      omega
    have h5len2 : 5 ≤ (dropBits 5 s).length := by
      simp only [dropBits, List.length_drop]
      omega
    have h5len : 5 ≤ s.length := by omega
    simp only [List.append_assoc]
    rw [hwd, hwl, hjoin, natBits_readBits 4 _ h4len, take_append_dropBits,
      natBits_readBits 5 _ h5len2, take_append_dropBits,
      natBits_readBits 5 s h5len, take_append_dropBits]

set_option maxRecDepth 80000 in
/-- Witness for C1: a concrete 43-bit dynamic header (HLIT=0, HDIST=0,
HCLEN=0; meta lengths give a two-symbol meta code over symbols 0 and 18; the
literal/length section is two long zero runs totalling 257, the distance
section one zero) decodes to an 8-byte puff header, and the encoder inverts
it exactly. -/
theorem claim_C1_witness :
    buildDynamicHuffmanTableDec
      (List.replicate 14 false ++ [false, false, false] ++
        [false, false, false] ++ [true, false, false] ++
        [true, false, false] ++ [true] ++
        [true, true, true, true, true, true, true] ++ [true] ++
        [false, false, true, true, false, true, true] ++ [false]) 8 =
      .ok ([0, 0, 0, 0, 17, 155, 136, 0], List.replicate 257 0, [0], []) ∧
    (∃ w, buildDynamicHuffmanTableEnc [0, 0, 0, 0, 17, 155, 136, 0]
        [0, 0, 0, 0, 17, 155, 136, 0].length =
      .ok (w, List.replicate 257 0, [0]) ∧ w ++ [] =
        List.replicate 14 false ++ [false, false, false] ++
        [false, false, false] ++ [true, false, false] ++
        [true, false, false] ++ [true] ++
        [true, true, true, true, true, true, true] ++ [true] ++
        [false, false, true, true, false, true, true] ++ [false]) :=
  ⟨by decide, claim_C1_dynamic_header_roundtrip
    (List.replicate 14 false ++ [false, false, false] ++
      [false, false, false] ++ [true, false, false] ++
      [true, false, false] ++ [true] ++
      [true, true, true, true, true, true, true] ++ [true] ++
      [false, false, true, true, false, true, true] ++ [false]) 8
    [0, 0, 0, 0, 17, 155, 136, 0] (List.replicate 257 0) [0] []
    (by decide)⟩

end Puffin

